import Mathlib

/-!
Verification of the dependency-closure resolution engine of the
`contentstack/cli-query-export` repository, as a shallow embedding in Lean.

JavaScript `Set<string>` values are modelled as insertion-ordered duplicate-free
`List String` values: `insertSet` is `Set.prototype.add` and `addAll` folds it
over a list.  `Array.from(set)` is then the identity on the model.
-/

namespace QueryExport

/-- `Set.prototype.add`: append the element unless it is already present. -/
def insertSet (l : List String) (x : String) : List String :=
  if x ∈ l then l else l ++ [x]

/-- Add every element of `xs` to the set `l`, in order. -/
def addAll (l : List String) (xs : List String) : List String :=
  xs.foldl insertSet l

/-- Build a JS `Set` from a list (insertion-order dedup). -/
def setList (xs : List String) : List String :=
  addAll [] xs

theorem mem_insertSet {l : List String} {x y : String} :
    y ∈ insertSet l x ↔ y ∈ l ∨ y = x := by
  by_cases hx : x ∈ l
  · simp only [insertSet, if_pos hx]
    constructor
    · exact Or.inl
    · rintro (h | rfl)
      · exact h
      · exact hx
  · simp [insertSet, hx]

theorem insertSet_nodup {l : List String} {x : String} (h : l.Nodup) :
    (insertSet l x).Nodup := by
  by_cases hx : x ∈ l
  · simpa [insertSet, hx] using h
  · rw [insertSet, if_neg hx]
    exact List.Nodup.append h (List.nodup_singleton x) (by simpa using hx)

theorem insertSet_of_mem {l : List String} {x : String} (h : x ∈ l) :
    insertSet l x = l := by
  simp [insertSet, h]

theorem subset_insertSet {l : List String} {x : String} : l ⊆ insertSet l x := by
  intro a ha; exact mem_insertSet.mpr (Or.inl ha)

theorem mem_addAll {l xs : List String} {y : String} :
    y ∈ addAll l xs ↔ y ∈ l ∨ y ∈ xs := by
  induction xs generalizing l with
  | nil => simp [addAll]
  | cons x xs ih =>
    show y ∈ addAll (insertSet l x) xs ↔ _
    rw [ih, mem_insertSet]
    simp only [List.mem_cons]
    tauto

theorem addAll_nodup {l xs : List String} (h : l.Nodup) : (addAll l xs).Nodup := by
  induction xs generalizing l with
  | nil => simpa [addAll] using h
  | cons x xs ih => exact ih (insertSet_nodup h)

theorem subset_addAll_left {l xs : List String} : l ⊆ addAll l xs := by
  induction xs generalizing l with
  | nil => simp [addAll]
  | cons x xs ih =>
    intro a ha
    exact ih (subset_insertSet ha)

theorem subset_addAll_right {l xs : List String} : xs ⊆ addAll l xs := by
  intro a ha; exact mem_addAll.mpr (Or.inr ha)

theorem addAll_of_subset {l xs : List String} (h : ∀ x ∈ xs, x ∈ l) :
    addAll l xs = l := by
  induction xs generalizing l with
  | nil => rfl
  | cons x xs ih =>
    show addAll (insertSet l x) xs = l
    rw [insertSet_of_mem (h x (by simp))]
    exact ih fun y hy => h y (by simp [hy])

theorem setList_nodup (xs : List String) : (setList xs).Nodup :=
  addAll_nodup List.nodup_nil

theorem mem_setList {xs : List String} {y : String} :
    y ∈ setList xs ↔ y ∈ xs := by
  simp [setList, mem_addAll]

/-!
## Schema model

A content-type schema is an untyped tree of field descriptors in the source.
The model keeps the attributes the two schema walkers
(`ReferencedContentTypesHandler.getReferencedContentTypes` and
`ContentTypeDependenciesHandler.traverseSchemaForDependencies`) read:

* `data_type` — the dispatch tag;
* `reference_to` — on `reference` / rich-text `json` / `text` fields this is an
  array of content-type UIDs; on `global_field` fields it is a single UID.
  The untyped source stores both under one attribute; the model splits them
  into `reference_to` (array form, `none` = attribute absent) and
  `reference_to_g` (string form, `none` = absent);
* `rich_text_type`, `embed_entry` — truthiness of
  `field_metadata?.rich_text_type` / `field_metadata?.embed_entry`;
* `extension_uid` — `none` = absent;
* `taxonomies` — `none` = absent; each element models one entry of the array,
  carrying its optional `taxonomy_uid`;
* `has_schema`/`schema` — `has_schema = false` models an absent `schema`
  attribute (dereferencing it then throws in the source);
* `blocks` — the block values of the `blocks` object in key order (iterating
  an absent `blocks` object with `for…in` performs no iterations, so absence
  is modelled by the empty list); each block has its own optional schema.
-/

mutual
inductive Field : Type where
  | mk : (data_type : String) → (reference_to : Option (List String)) →
      (reference_to_g : Option String) →
      (rich_text_type : Bool) → (embed_entry : Bool) →
      (extension_uid : Option String) →
      (taxonomies : Option (List (Option String))) →
      (has_schema : Bool) → (schema : List Field) →
      (blocks : List Block) → Field
inductive Block : Type where
  | mk : (has_schema : Bool) → (schema : List Field) → Block
end

def Field.data_type : Field → String
  | .mk d _ _ _ _ _ _ _ _ _ => d

def Field.reference_to : Field → Option (List String)
  | .mk _ r _ _ _ _ _ _ _ _ => r

def Field.reference_to_g : Field → Option String
  | .mk _ _ r _ _ _ _ _ _ _ => r

def Field.rich_text_type : Field → Bool
  | .mk _ _ _ r _ _ _ _ _ _ => r

def Field.embed_entry : Field → Bool
  | .mk _ _ _ _ e _ _ _ _ _ => e

def Field.extension_uid : Field → Option String
  | .mk _ _ _ _ _ e _ _ _ _ => e

def Field.taxonomies : Field → Option (List (Option String))
  | .mk _ _ _ _ _ _ t _ _ _ => t

def Field.has_schema : Field → Bool
  | .mk _ _ _ _ _ _ _ h _ _ => h

def Field.schema : Field → List Field
  | .mk _ _ _ _ _ _ _ _ s _ => s

def Field.blocks : Field → List Block
  | .mk _ _ _ _ _ _ _ _ _ b => b

def Block.has_schema : Block → Bool
  | .mk h _ => h

def Block.schema : Block → List Field
  | .mk _ s => s

/-!
## `ReferencedContentTypesHandler.getReferencedContentTypes`

The walker adds, to one `Set`, every `reference_to` entry other than the
literal `sys_assets` of `reference` fields and of rich-text `json` / `text`
fields with embedded-entry semantics, recursing into `group` / `global_field`
schemas and into every block schema of a `blocks` field.  The recursion
dereferences `field.schema` (and each block's `.schema`) unguarded, so a
missing schema array throws a `TypeError`; the model returns `none` there.
`travFields` returns the visited entries in visit order (with duplicates);
`getReferencedContentTypes` dedups them through the `Set`.
-/

mutual
def travField : Field → Option (List String)
  | .mk dt refTo _ rtt emb _ _ hsch sch blks =>
    if dt = ("group") ∨ dt = ("global_field") then
      if hsch then travFields sch else none
    else if dt = ("blocks") then
      travBlocks blks
    else if dt = ("reference") then
      match refTo with
      | some refs => some (refs.filter (fun r => r ≠ ("sys_assets")))
      | none => some []
    else if dt = ("json") ∧ rtt ∧ emb then
      match refTo with
      | some refs => some (refs.filter (fun r => r ≠ ("sys_assets")))
      | none => some []
    else if dt = ("text") ∧ rtt ∧ emb then
      match refTo with
      | some refs => some (refs.filter (fun r => r ≠ ("sys_assets")))
      | none => some []
    else
      some []

def travFields : List Field → Option (List String)
  | [] => some []
  | f :: fs =>
    match travField f, travFields fs with
    | some l₁, some l₂ => some (l₁ ++ l₂)
    | _, _ => none

def travBlocks : List Block → Option (List String)
  | [] => some []
  | .mk hsch sch :: bs =>
    if hsch then
      match travFields sch, travBlocks bs with
      | some l₁, some l₂ => some (l₁ ++ l₂)
      | _, _ => none
    else none
end

/-- `getReferencedContentTypes(schema)`: traverse and return `Array.from(set)`,
`none` modelling a thrown `TypeError`. -/
def getReferencedContentTypes (schema : List Field) : Option (List String) :=
  (travFields schema).map setList

/-- A record of `content_types/schema.json`: the resolver reads only `uid` and
`schema` (`none` = absent, skipped by the `if (contentType.schema)` guards). -/
structure ContentTypeRec where
  uid : String
  schema : Option (List Field)

/-- The `for (const contentType of contentTypeBatch)` loop of
`extractReferencedContentTypes`, accumulating the `allReferencedTypes` set. -/
def extractRCTGo : List ContentTypeRec → List String → Option (List String)
  | [], acc => some acc
  | ct :: cts, acc =>
    match ct.schema with
    | none => extractRCTGo cts acc
    | some s =>
      match getReferencedContentTypes s with
      | none => none
      | some refs => extractRCTGo cts (addAll acc refs)

/-- `ReferencedContentTypesHandler.extractReferencedContentTypes(batch)`: union
each record's referenced types into one `Set`, skipping records without a
`schema`; `none` models a thrown `TypeError` from the walker. -/
def extractReferencedContentTypes (batch : List ContentTypeRec) : Option (List String) :=
  extractRCTGo batch []

/-!
## `ContentTypeDependenciesHandler.traverseSchemaForDependencies`

The dependent-module walker (the marketplace-app variant of the handler).  It
accumulates into four `Set`s; every recursion here is guarded by the presence
of the nested schema, so this walker is total.
-/

/-- The four dependency sets (`DependencyBundle`), each a JS `Set`. -/
structure Deps where
  globalFields : List String
  extensions : List String
  taxonomies : List String
  marketplaceApps : List String
deriving DecidableEq

def emptyDeps : Deps := ⟨[], [], [], []⟩

mutual
def travFieldDeps : Field → Deps → Deps
  | .mk dt _ refG _ _ ext tax hsch sch blks, deps =>
    let d₁ :=
      match refG with
      | some g =>
        if dt = ("global_field") then
          { deps with globalFields := insertSet deps.globalFields g }
        else deps
      | none => deps
    let d₂ :=
      match ext with
      | some e => { d₁ with extensions := insertSet d₁.extensions e }
      | none => d₁
    let d₃ :=
      match tax with
      | some entries =>
        if dt = ("taxonomy") then
          { d₂ with taxonomies :=
              entries.foldl (fun acc t =>
                match t with
                | some u => insertSet acc u
                | none => acc) d₂.taxonomies }
        else d₂
      | none => d₂
    let d₄ := if dt = ("group") ∧ hsch then travFieldsDeps sch d₃ else d₃
    if dt = ("blocks") then travBlocksDeps blks d₄ else d₄

def travFieldsDeps : List Field → Deps → Deps
  | [], deps => deps
  | f :: fs, deps => travFieldsDeps fs (travFieldDeps f deps)

def travBlocksDeps : List Block → Deps → Deps
  | [], deps => deps
  | .mk hsch sch :: bs, deps =>
    travBlocksDeps bs (if hsch then travFieldsDeps sch deps else deps)
end

/-- `traverseSchemaForDependencies(schema, dependencies)` (mutating form). -/
def traverseSchemaForDependencies (schema : List Field) (deps : Deps) : Deps :=
  travFieldsDeps schema deps

/-!
## `ContentTypeDependenciesHandler.fetchExtensionsAndMarketplaceApps`

The disambiguation step receives the candidate extension UIDs and a response
from the external fetch collaborator.  `FetchOutcome.err` models the fetch
throwing; `FetchOutcome.ok none` models a response without an `items` array;
`FetchOutcome.ok (some items)` a successful response.
-/

/-- One record of the extension query response. -/
structure ExtItem where
  uid : String
  app_uid : Option String
  app_installation_uid : Option String
deriving DecidableEq

inductive FetchOutcome : Type where
  | ok : Option (List ExtItem) → FetchOutcome
  | err : FetchOutcome

/-- `fetchExtensionsAndMarketplaceApps(extensionUIDs)` given the response:
returns `(extensions, marketplaceApps)`. -/
def fetchExtensionsAndMarketplaceApps (extensionUIDs : List String)
    (resp : FetchOutcome) : List String × List String :=
  match resp with
  | .err => (extensionUIDs, [])
  | .ok none => (extensionUIDs, [])
  | .ok (some items) =>
    items.foldl (fun acc item =>
      match item.app_uid, item.app_installation_uid with
      | some _, some inst => (acc.1, acc.2 ++ [inst])
      | _, _ => (acc.1 ++ [item.uid], acc.2)) ([], [])

/-!
## Proof infrastructure for the reference walker

`refEntriesF`/`refEntriesL`/`refEntriesB` collect, in visit order and without
the `sys_assets` filter, every `reference_to` entry the walker visits (on
inputs where the walker throws, the collectors just skip the missing schema;
they are only related to the walker on non-throwing runs).  `wfField` is the
precondition under which the walker cannot throw: every `group`/`global_field`
field and every block carries a schema array.
-/

mutual
def refEntriesF : Field → List String
  | .mk dt refTo _ rtt emb _ _ hsch sch blks =>
    if dt = ("group") ∨ dt = ("global_field") then
      if hsch then refEntriesL sch else []
    else if dt = ("blocks") then
      refEntriesB blks
    else if dt = ("reference") ∨ (dt = ("json") ∧ rtt ∧ emb) ∨ (dt = ("text") ∧ rtt ∧ emb) then
      refTo.getD []
    else []

def refEntriesL : List Field → List String
  | [] => []
  | f :: fs => refEntriesF f ++ refEntriesL fs

def refEntriesB : List Block → List String
  | [] => []
  | .mk hsch sch :: bs => (if hsch then refEntriesL sch else []) ++ refEntriesB bs
end

mutual
def wfField : Field → Bool
  | .mk dt _ _ _ _ _ _ hsch sch blks =>
    (if dt = ("group") ∨ dt = ("global_field") then hsch && wfFields sch else true) &&
    (if dt = ("blocks") then wfBlocks blks else true)

def wfFields : List Field → Bool
  | [] => true
  | f :: fs => wfField f && wfFields fs

def wfBlocks : List Block → Bool
  | [] => true
  | .mk hsch sch :: bs => (hsch && wfFields sch) && wfBlocks bs
end

mutual
theorem travField_eq_refEntries : ∀ (f : Field) (l : List String),
    travField f = some l → l = (refEntriesF f).filter (fun r => r ≠ ("sys_assets"))
  | .mk dt refTo refG rtt emb ext tax hsch sch blks, l => by
    intro h
    rw [travField.eq_def] at h
    dsimp only at h
    rw [refEntriesF.eq_def]
    dsimp only
    by_cases h₁ : dt = ("group") ∨ dt = ("global_field")
    · rw [if_pos h₁] at h ⊢
      cases hsch with
      | true => simpa using travFields_eq_refEntries sch l (by simpa using h)
      | false => simp at h
    · rw [if_neg h₁] at h ⊢
      by_cases h₂ : dt = ("blocks")
      · rw [if_pos h₂] at h ⊢
        exact travBlocks_eq_refEntries blks l h
      · rw [if_neg h₂] at h ⊢
        by_cases h₃ : dt = ("reference")
        · rw [if_pos h₃] at h
          rw [if_pos (Or.inl h₃)]
          cases refTo with
          | some refs => simpa [Option.getD] using h.symm
          | none => simpa [Option.getD] using h.symm
        · rw [if_neg h₃] at h
          by_cases h₄ : dt = ("json") ∧ rtt ∧ emb
          · rw [if_pos h₄] at h
            rw [if_pos (Or.inr (Or.inl h₄))]
            cases refTo with
            | some refs => simpa [Option.getD] using h.symm
            | none => simpa [Option.getD] using h.symm
          · rw [if_neg h₄] at h
            by_cases h₅ : dt = ("text") ∧ rtt ∧ emb
            · rw [if_pos h₅] at h
              rw [if_pos (Or.inr (Or.inr h₅))]
              cases refTo with
              | some refs => simpa [Option.getD] using h.symm
              | none => simpa [Option.getD] using h.symm
            · rw [if_neg h₅] at h
              rw [if_neg (by tauto)]
              simpa using h.symm

theorem travFields_eq_refEntries : ∀ (fs : List Field) (l : List String),
    travFields fs = some l → l = (refEntriesL fs).filter (fun r => r ≠ ("sys_assets"))
  | [], l => by
    intro h
    rw [travFields] at h
    simpa [refEntriesL] using h.symm
  | f :: fs, l => by
    intro h
    rw [travFields] at h
    rw [refEntriesL]
    cases h₁ : travField f with
    | none => rw [h₁] at h; simp at h
    | some l₁ =>
      cases h₂ : travFields fs with
      | none => rw [h₁, h₂] at h; simp at h
      | some l₂ =>
        rw [h₁, h₂] at h
        simp only [Option.some.injEq] at h
        rw [← h, List.filter_append,
          travField_eq_refEntries f l₁ h₁, travFields_eq_refEntries fs l₂ h₂]

theorem travBlocks_eq_refEntries : ∀ (bs : List Block) (l : List String),
    travBlocks bs = some l → l = (refEntriesB bs).filter (fun r => r ≠ ("sys_assets"))
  | [], l => by
    intro h
    rw [travBlocks] at h
    simpa [refEntriesB] using h.symm
  | .mk hsch sch :: bs, l => by
    intro h
    rw [travBlocks] at h
    rw [refEntriesB]
    cases hsch with
    | false => simp at h
    | true =>
      simp only [if_pos] at h ⊢
      cases h₁ : travFields sch with
      | none => rw [h₁] at h; simp at h
      | some l₁ =>
        cases h₂ : travBlocks bs with
        | none => rw [h₁, h₂] at h; simp at h
        | some l₂ =>
          rw [h₁, h₂] at h
          simp only [Option.some.injEq] at h
          rw [← h, List.filter_append,
            travFields_eq_refEntries sch l₁ h₁, travBlocks_eq_refEntries bs l₂ h₂]
end

mutual
theorem travField_isSome_of_wf : ∀ (f : Field), wfField f = true → (travField f).isSome
  | .mk dt refTo refG rtt emb ext tax hsch sch blks => by
    intro h
    rw [wfField.eq_def] at h
    dsimp only at h
    rw [travField.eq_def]
    dsimp only
    by_cases h₁ : dt = ("group") ∨ dt = ("global_field")
    · rw [if_pos h₁]
      rw [if_pos h₁] at h
      simp only [Bool.and_eq_true] at h
      obtain ⟨⟨hs, hw⟩, -⟩ := h
      rw [hs, if_pos rfl]
      exact travFields_isSome_of_wf sch hw
    · rw [if_neg h₁]
      rw [if_neg h₁, Bool.true_and] at h
      by_cases h₂ : dt = ("blocks")
      · rw [if_pos h₂]
        rw [if_pos h₂] at h
        exact travBlocks_isSome_of_wf blks h
      · rw [if_neg h₂]
        by_cases h₃ : dt = ("reference")
        · rw [if_pos h₃]; cases refTo <;> simp
        · rw [if_neg h₃]
          by_cases h₄ : dt = ("json") ∧ rtt ∧ emb
          · rw [if_pos h₄]; cases refTo <;> simp
          · rw [if_neg h₄]
            by_cases h₅ : dt = ("text") ∧ rtt ∧ emb
            · rw [if_pos h₅]; cases refTo <;> simp
            · rw [if_neg h₅]; simp

theorem travFields_isSome_of_wf : ∀ (fs : List Field), wfFields fs = true → (travFields fs).isSome
  | [] => by intro h; rw [travFields]; simp
  | f :: fs => by
    intro h
    rw [wfFields, Bool.and_eq_true] at h
    rw [travFields]
    have h₁ := travField_isSome_of_wf f h.1
    have h₂ := travFields_isSome_of_wf fs h.2
    cases hf : travField f with
    | none => rw [hf] at h₁; simp at h₁
    | some l₁ =>
      cases hfs : travFields fs with
      | none => rw [hfs] at h₂; simp at h₂
      | some l₂ => simp

theorem travBlocks_isSome_of_wf : ∀ (bs : List Block), wfBlocks bs = true → (travBlocks bs).isSome
  | [] => by intro h; rw [travBlocks]; simp
  | .mk hsch sch :: bs => by
    intro h
    rw [wfBlocks, Bool.and_eq_true, Bool.and_eq_true] at h
    obtain ⟨⟨hs, hw⟩, hb⟩ := h
    rw [travBlocks, hs, if_pos rfl]
    have h₁ := travFields_isSome_of_wf sch hw
    have h₂ := travBlocks_isSome_of_wf bs hb
    cases hf : travFields sch with
    | none => rw [hf] at h₁; simp at h₁
    | some l₁ =>
      cases hbs : travBlocks bs with
      | none => rw [hbs] at h₂; simp at h₂
      | some l₂ => simp
end

/-!
## Proof infrastructure for the dependent-module walker

`collectF`/`collectL`/`collectB` return the `(globalFields, extensions,
taxonomies)` items that `traverseSchemaForDependencies` inserts, in insertion
order with duplicates; the walker is then exactly `addAll` of these over the
incoming bundle, and never touches `marketplaceApps`.
-/

theorem addAll_append {l xs ys : List String} :
    addAll l (xs ++ ys) = addAll (addAll l xs) ys :=
  List.foldl_append _ _ _ _

theorem addAll_singleton {l : List String} {x : String} :
    addAll l [x] = insertSet l x := rfl

theorem foldl_tax_eq_addAll (entries : List (Option String)) (base : List String) :
    entries.foldl (fun acc t =>
      match t with
      | some u => insertSet acc u
      | none => acc) base = addAll base (entries.filterMap id) := by
  induction entries generalizing base with
  | nil => rfl
  | cons t ts ih =>
    cases t with
    | none => simpa using ih base
    | some u =>
      show ts.foldl _ (insertSet base u) = _
      rw [ih (insertSet base u)]
      rfl

mutual
def collectF : Field → List String × List String × List String
  | .mk dt _ refG _ _ ext tax hsch sch blks =>
    let own : List String × List String × List String :=
      ((if dt = ("global_field") then refG.toList else []),
       ext.toList,
       (if dt = ("taxonomy") then (tax.getD []).filterMap id else []))
    let grp := if dt = ("group") ∧ hsch then collectL sch else ([], [], [])
    let blk := if dt = ("blocks") then collectB blks else ([], [], [])
    (own.1 ++ grp.1 ++ blk.1, own.2.1 ++ grp.2.1 ++ blk.2.1,
     own.2.2 ++ grp.2.2 ++ blk.2.2)

def collectL : List Field → List String × List String × List String
  | [] => ([], [], [])
  | f :: fs =>
    let c₁ := collectF f
    let c₂ := collectL fs
    (c₁.1 ++ c₂.1, c₁.2.1 ++ c₂.2.1, c₁.2.2 ++ c₂.2.2)

def collectB : List Block → List String × List String × List String
  | [] => ([], [], [])
  | .mk hsch sch :: bs =>
    let c₁ := if hsch then collectL sch else ([], [], [])
    let c₂ := collectB bs
    (c₁.1 ++ c₂.1, c₁.2.1 ++ c₂.2.1, c₁.2.2 ++ c₂.2.2)
end

/-- Apply a collected triple to a bundle, exactly as the walker's `Set.add`
calls do. -/
def applyCollect (d : Deps) (c : List String × List String × List String) : Deps :=
  { globalFields := addAll d.globalFields c.1,
    extensions := addAll d.extensions c.2.1,
    taxonomies := addAll d.taxonomies c.2.2,
    marketplaceApps := d.marketplaceApps }

theorem applyCollect_append (d : Deps) (c₁ c₂ : List String × List String × List String) :
    applyCollect d (c₁.1 ++ c₂.1, c₁.2.1 ++ c₂.2.1, c₁.2.2 ++ c₂.2.2) =
      applyCollect (applyCollect d c₁) c₂ := by
  simp [applyCollect, addAll_append]

theorem addAll_nil {l : List String} : addAll l [] = l := rfl

theorem addAll_cons {l xs : List String} {x : String} :
    addAll l (x :: xs) = addAll (insertSet l x) xs := rfl

mutual
theorem travFieldDeps_eq_collect : ∀ (f : Field) (d : Deps),
    travFieldDeps f d = applyCollect d (collectF f)
  | .mk dt refTo refG rtt emb ext tax hsch sch blks, d => by
    rw [travFieldDeps.eq_def, collectF.eq_def]
    dsimp only
    have hfs := fun d' => travFieldsDeps_eq_collect sch d'
    have hbs := fun d' => travBlocksDeps_eq_collect blks d'
    cases d with
    | mk gf ex tx ma =>
      cases refG <;> cases ext <;> cases tax <;>
        by_cases h1 : dt = ("global_field") <;>
        by_cases h2 : dt = ("taxonomy") <;>
        by_cases h3 : dt = ("group") <;>
        by_cases h4 : dt = ("blocks") <;>
        first
        | (exact absurd (h1 ▸ h2) (by decide))
        | (exact absurd (h1 ▸ h3) (by decide))
        | (exact absurd (h1 ▸ h4) (by decide))
        | (exact absurd (h2 ▸ h3) (by decide))
        | (exact absurd (h2 ▸ h4) (by decide))
        | (exact absurd (h3 ▸ h4) (by decide))
        | (cases hsch <;>
           simp only [h1, h2, h3, h4, if_true, if_false, ite_true, ite_false,
             if_pos, if_neg, not_false_iff, and_true, and_false, true_and,
             false_and, if_neg (by simp [h1] : ¬(dt = ("group") ∧ False)),
             hfs, hbs, applyCollect, Option.toList, Option.getD,
             foldl_tax_eq_addAll, addAll_nil, addAll_cons, addAll_append,
             List.append_nil, List.nil_append] <;>
           simp [applyCollect, addAll_nil, addAll_cons, addAll_append])

theorem travFieldsDeps_eq_collect : ∀ (fs : List Field) (d : Deps),
    travFieldsDeps fs d = applyCollect d (collectL fs)
  | [], d => by
    rw [travFieldsDeps, collectL]
    cases d; simp [applyCollect, addAll_nil]
  | f :: fs, d => by
    rw [travFieldsDeps, collectL]
    rw [travFieldDeps_eq_collect f d, travFieldsDeps_eq_collect fs _]
    rw [applyCollect_append]

theorem travBlocksDeps_eq_collect : ∀ (bs : List Block) (d : Deps),
    travBlocksDeps bs d = applyCollect d (collectB bs)
  | [], d => by
    rw [travBlocksDeps, collectB]
    cases d; simp [applyCollect, addAll_nil]
  | .mk hsch sch :: bs, d => by
    rw [travBlocksDeps, collectB]
    cases hsch with
    | true =>
      rw [if_pos rfl, if_pos rfl, travFieldsDeps_eq_collect sch d,
        travBlocksDeps_eq_collect bs _, applyCollect_append]
    | false =>
      rw [if_neg (by simp), if_neg (by simp), travBlocksDeps_eq_collect bs d]
      simp
end

theorem extractRCTGo_cons_none {ct : ContentTypeRec} {cts : List ContentTypeRec}
    {acc : List String} (hs : ct.schema = none) :
    extractRCTGo (ct :: cts) acc = extractRCTGo cts acc := by
  rw [extractRCTGo, hs]

theorem extractRCTGo_cons_some {ct : ContentTypeRec} {cts : List ContentTypeRec}
    {acc : List String} {s : List Field} (hs : ct.schema = some s) :
    extractRCTGo (ct :: cts) acc =
      match getReferencedContentTypes s with
      | none => none
      | some refs => extractRCTGo cts (addAll acc refs) := by
  rw [extractRCTGo, hs]

theorem extractRCTGo_mono : ∀ {b : List ContentTypeRec} {acc r : List String},
    extractRCTGo b acc = some r → acc ⊆ r := by
  intro b
  induction b with
  | nil => intro acc r h; rw [extractRCTGo] at h; cases h; exact fun _ ha => ha
  | cons ct cts ih =>
    intro acc r h
    cases hs : ct.schema with
    | none => rw [extractRCTGo_cons_none hs] at h; exact ih h
    | some s =>
      rw [extractRCTGo_cons_some hs] at h
      cases hg : getReferencedContentTypes s with
      | none => rw [hg] at h; cases h
      | some refs =>
        rw [hg] at h
        exact fun x hx => ih h (subset_addAll_left hx)

theorem extractRCTGo_idem : ∀ {b : List ContentTypeRec} {acc r : List String},
    extractRCTGo b acc = some r → extractRCTGo b r = some r := by
  intro b
  induction b with
  | nil => intro acc r h; rw [extractRCTGo] at h; cases h; rfl
  | cons ct cts ih =>
    intro acc r h
    cases hs : ct.schema with
    | none =>
      rw [extractRCTGo_cons_none hs] at h
      rw [extractRCTGo_cons_none hs]
      exact ih h
    | some s =>
      rw [extractRCTGo_cons_some hs] at h
      rw [extractRCTGo_cons_some hs]
      cases hg : getReferencedContentTypes s with
      | none => simp only [hg] at h; cases h
      | some refs =>
        simp only [hg] at h
        dsimp only
        have hsub : refs ⊆ r := fun x hx =>
          extractRCTGo_mono h (subset_addAll_right hx)
        rw [addAll_of_subset hsub]
        exact ih h

theorem extractRCTGo_append : ∀ (b₁ b₂ : List ContentTypeRec) (acc : List String),
    extractRCTGo (b₁ ++ b₂) acc =
      match extractRCTGo b₁ acc with
      | none => none
      | some a => extractRCTGo b₂ a := by
  intro b₁
  induction b₁ with
  | nil => intro b₂ acc; rw [List.nil_append, extractRCTGo]
  | cons ct cts ih =>
    intro b₂ acc
    rw [List.cons_append]
    cases hs : ct.schema with
    | none => rw [extractRCTGo_cons_none hs, extractRCTGo_cons_none hs, ih]
    | some s =>
      rw [extractRCTGo_cons_some hs, extractRCTGo_cons_some hs]
      cases hg : getReferencedContentTypes s with
      | none => dsimp only
      | some refs => dsimp only; exact ih b₂ _

/-!
## Claim theorems
-/

/-- **C4.** For every schema tree, if the reference walker returns (it throws
on no input relevant here), its output never contains the literal
`sys_assets`, while every other `reference_to` entry the walker visits
(collected by `refEntriesL`) is included in the output. -/
theorem getReferencedContentTypes_sys_assets_excluded
    (schema : List Field) (out : List String)
    (h : getReferencedContentTypes schema = some out) :
    ("sys_assets") ∉ out ∧
      ∀ r ∈ refEntriesL schema, r ≠ ("sys_assets") → r ∈ out := by
  rw [getReferencedContentTypes] at h
  cases hl : travFields schema with
  | none => rw [hl] at h; cases h
  | some l =>
    rw [hl] at h
    rw [show (some l).map setList = some (setList l) from rfl] at h
    rw [Option.some.injEq] at h
    have hchar := travFields_eq_refEntries schema l hl
    constructor
    · rw [← h, mem_setList, hchar]
      intro hmem
      have := (List.mem_filter.mp hmem).2
      simp at this
    · intro r hr hne
      rw [← h, mem_setList, hchar]
      exact List.mem_filter.mpr ⟨hr, by simpa using hne⟩

/-- Witness for C4: a schema with one `reference` field pointing at
`sys_assets` and `author`. -/
theorem getReferencedContentTypes_sys_assets_excluded_witness :
    ("sys_assets") ∉ (["author"] : List String) ∧
      ∀ r ∈ refEntriesL
          [Field.mk ("reference") (some [("sys_assets"), ("author")]) none
            false false none none false [] []],
        r ≠ ("sys_assets") → r ∈ (["author"] : List String) :=
  getReferencedContentTypes_sys_assets_excluded
    [Field.mk ("reference") (some [("sys_assets"), ("author")]) none
      false false none none false [] []]
    ["author"] (by decide)

/-- **C9.** The reference walker is not total: a `group` field without a
`schema` array makes it throw (`none` in the model); and under the
precondition that every `group`/`global_field` field and every block carries
a schema array (`wfFields`), the walker always returns. -/
theorem getReferencedContentTypes_partiality :
    getReferencedContentTypes
        [Field.mk ("group") none none false false none none false [] []] = none ∧
      ∀ schema : List Field, wfFields schema = true →
        (getReferencedContentTypes schema).isSome := by
  constructor
  · decide
  · intro schema hwf
    rw [getReferencedContentTypes]
    have := travFields_isSome_of_wf schema hwf
    cases h : travFields schema with
    | none => rw [h] at this; simp at this
    | some l => simp

/-- Witness for C9's conditional part: a well-formed `group` field. -/
theorem getReferencedContentTypes_partiality_witness :
    wfFields [Field.mk ("group") none none false false none none true
        [Field.mk ("reference") (some [("author")]) none false false none none
          false [] []] []] = true ∧
      (getReferencedContentTypes
        [Field.mk ("group") none none false false none none true
          [Field.mk ("reference") (some [("author")]) none false false none none
            false [] []] []]).isSome :=
  ⟨by decide,
    getReferencedContentTypes_partiality.2
      [Field.mk ("group") none none false false none none true
        [Field.mk ("reference") (some [("author")]) none false false none none
          false [] []] []] (by decide)⟩

/-- **C8.** Re-running the schema dependency extraction over the same input
changes nothing: a second pass of `traverseSchemaForDependencies` over the
same schema leaves the four dependency sets unchanged, the batch extractor
`extractReferencedContentTypes` gives the same referenced set for a
duplicated batch, and the sets built from a fresh bundle are duplicate-free. -/
theorem schemaDependencyExtraction_idempotent :
    (∀ (schema : List Field) (d : Deps),
        traverseSchemaForDependencies schema (traverseSchemaForDependencies schema d) =
          traverseSchemaForDependencies schema d) ∧
      (∀ batch : List ContentTypeRec,
        extractReferencedContentTypes (batch ++ batch) =
          extractReferencedContentTypes batch) ∧
      ∀ schema : List Field,
        (traverseSchemaForDependencies schema emptyDeps).globalFields.Nodup ∧
          (traverseSchemaForDependencies schema emptyDeps).extensions.Nodup ∧
          (traverseSchemaForDependencies schema emptyDeps).taxonomies.Nodup ∧
          (traverseSchemaForDependencies schema emptyDeps).marketplaceApps.Nodup := by
  refine ⟨?_, ?_, ?_⟩
  · intro schema d
    rw [traverseSchemaForDependencies, traverseSchemaForDependencies,
      travFieldsDeps_eq_collect, travFieldsDeps_eq_collect]
    cases d with
    | mk gf ex tx ma =>
      simp only [applyCollect, Deps.mk.injEq]
      refine ⟨?_, ?_, ?_, trivial⟩ <;>
        exact addAll_of_subset fun x hx => subset_addAll_right hx
  · intro batch
    rw [extractReferencedContentTypes, extractReferencedContentTypes,
      extractRCTGo_append]
    cases h : extractRCTGo batch [] with
    | none => rfl
    | some r => exact extractRCTGo_idem h
  · intro schema
    rw [traverseSchemaForDependencies, travFieldsDeps_eq_collect]
    exact ⟨addAll_nodup List.nodup_nil, addAll_nodup List.nodup_nil,
      addAll_nodup List.nodup_nil, List.nodup_nil⟩

/-- The claim of C2 is false on the code: when the disambiguation fetch
succeeds but resolves none of the candidates (an empty `items` array), the
candidate `ext1` is dropped — it is neither kept as a plain extension nor
reclassified as a marketplace app. -/
theorem fetchExtensionsAndMarketplaceApps_drops_unresolved :
    ("ext1") ∉ (fetchExtensionsAndMarketplaceApps [("ext1")]
        (FetchOutcome.ok (some []))).1 ∧
      (fetchExtensionsAndMarketplaceApps [("ext1")]
        (FetchOutcome.ok (some []))).2 = [] := by
  decide

/-- **C2 (amended).** The disambiguation result is fully characterised: if the
fetch throws, or the response has no `items` array, all candidate UIDs are
kept as plain extensions with no marketplace apps; otherwise the result
classifies exactly the returned records — those carrying both an `app_uid`
and an `app_installation_uid` contribute the installation UID to
`marketplaceApps`, every other returned record contributes its `uid` to
`extensions` — and candidate UIDs absent from the returned records are
dropped. -/
theorem fetchExtensionsAndMarketplaceApps_characterisation
    (uids : List String) :
    fetchExtensionsAndMarketplaceApps uids FetchOutcome.err = (uids, []) ∧
      fetchExtensionsAndMarketplaceApps uids (FetchOutcome.ok none) = (uids, []) ∧
      ∀ items : List ExtItem,
        fetchExtensionsAndMarketplaceApps uids (FetchOutcome.ok (some items)) =
          (items.filterMap fun it =>
            match it.app_uid, it.app_installation_uid with
            | some _, some _ => none
            | _, _ => some it.uid,
           items.filterMap fun it =>
            match it.app_uid, it.app_installation_uid with
            | some _, some inst => some inst
            | _, _ => none) := by
  refine ⟨rfl, rfl, ?_⟩
  intro items
  rw [fetchExtensionsAndMarketplaceApps]
  suffices hgen : ∀ (its : List ExtItem) (acc : List String × List String),
      its.foldl (fun acc item =>
        match item.app_uid, item.app_installation_uid with
        | some _, some inst => (acc.1, acc.2 ++ [inst])
        | _, _ => (acc.1 ++ [item.uid], acc.2)) acc =
        (acc.1 ++ its.filterMap fun it =>
          match it.app_uid, it.app_installation_uid with
          | some _, some _ => none
          | _, _ => some it.uid,
         acc.2 ++ its.filterMap fun it =>
          match it.app_uid, it.app_installation_uid with
          | some _, some inst => some inst
          | _, _ => none) by
    rw [hgen items ([], [])]
    simp
  intro its
  induction its with
  | nil => intro acc; simp
  | cons it its ih =>
    intro acc
    rw [List.foldl_cons, List.filterMap_cons, List.filterMap_cons]
    cases hau : it.app_uid with
    | none =>
      rw [ih]
      simp
    | some au =>
      cases hai : it.app_installation_uid with
      | none => rw [ih]; simp
      | some inst => rw [ih]; simp

/-!
## `DependencyResolver.orderModules`

The `Modules` union type of the source, the static `MODULE_DEPENDENCIES` map
and the `EXPORT_ORDER` list, and `orderModules(modules)`, which returns
`EXPORT_ORDER.filter((module) => modules.includes(module))`.
-/

inductive Modules : Type where
  | stack | locales | environments | contentTypes | extensions
  | globalFields | entries | assets | webhooks | workflows
  | customRoles | labels | taxonomies | marketplaceApps | personalize
deriving DecidableEq, Fintype

open Modules in
def MODULE_DEPENDENCIES : Modules → List Modules
  | .stack => []
  | .locales => [stack]
  | .environments => [stack, locales]
  | .contentTypes => [stack, locales, environments]
  | .extensions => [stack, locales, environments, contentTypes]
  | .globalFields => [stack, locales, environments, contentTypes, extensions]
  | .entries => [stack, locales, environments, contentTypes, extensions, globalFields]
  | .assets => [stack, locales, environments, contentTypes, extensions, globalFields, entries]
  | .webhooks => [stack, locales, environments, contentTypes, extensions, globalFields,
      entries, assets]
  | .workflows => [stack, locales, environments, contentTypes, extensions, globalFields,
      entries, assets, webhooks]
  | .customRoles => [stack, locales, environments, contentTypes, extensions, globalFields,
      entries, assets, webhooks, workflows]
  | .labels => [stack, locales, environments, contentTypes, extensions, globalFields,
      entries, assets, webhooks, workflows, customRoles]
  | .taxonomies => [stack, locales, environments, contentTypes, extensions, globalFields,
      entries, assets, webhooks, workflows, customRoles, labels]
  | .marketplaceApps => [stack, locales, environments, contentTypes, extensions, globalFields,
      entries, assets, webhooks, workflows, customRoles, labels, taxonomies]
  | .personalize => [stack, locales, environments, contentTypes, extensions, globalFields,
      entries, assets, webhooks, workflows, customRoles, labels, taxonomies, marketplaceApps]

open Modules in
def EXPORT_ORDER : List Modules :=
  [stack, locales, environments, contentTypes, extensions, globalFields,
   entries, assets, webhooks, workflows, customRoles, labels, taxonomies,
   marketplaceApps, personalize]

/-- `orderModules(modules)` of `DependencyResolver`. -/
def orderModules (modules : List Modules) : List Modules :=
  EXPORT_ORDER.filter (fun m => modules.contains m)

theorem EXPORT_ORDER_nodup : EXPORT_ORDER.Nodup := by decide

theorem mem_EXPORT_ORDER : ∀ m : Modules, m ∈ EXPORT_ORDER := by decide

theorem MODULE_DEPENDENCIES_before : ∀ m : Modules, ∀ p ∈ MODULE_DEPENDENCIES m,
    EXPORT_ORDER.indexOf p < EXPORT_ORDER.indexOf m := by decide

/-- Filtering preserves relative order of `indexOf`. -/
theorem indexOf_filter_lt {α : Type} [DecidableEq α] (p : α → Bool) :
    ∀ (l : List α) (a b : α), a ∈ l →
      l.indexOf a < l.indexOf b → p a = true → p b = true →
      (l.filter p).indexOf a < (l.filter p).indexOf b := by
  intro l
  induction l with
  | nil => intro a b ha; cases ha
  | cons x xs ih =>
    intro a b ha hlt hpa hpb
    by_cases hxa : x = a
    · subst hxa
      have hxb : x ≠ b := by
        intro hxb
        rw [List.indexOf_cons_self, hxb, List.indexOf_cons_self] at hlt
        exact Nat.lt_irrefl 0 hlt
      rw [List.filter_cons_of_pos hpa, List.indexOf_cons_self,
        List.indexOf_cons_ne _ hxb]
      exact Nat.succ_pos _
    · have hxb : x ≠ b := by
        intro hxb
        rw [List.indexOf_cons_ne _ hxa, hxb, List.indexOf_cons_self] at hlt
        exact absurd hlt (Nat.not_lt_zero _)
      rw [List.indexOf_cons_ne _ hxa, List.indexOf_cons_ne _ hxb,
        Nat.succ_lt_succ_iff] at hlt
      have ha' : a ∈ xs := by
        cases List.mem_cons.mp ha with
        | inl h => exact absurd h.symm hxa
        | inr h => exact h
      by_cases hpx : p x = true
      · rw [List.filter_cons_of_pos hpx, List.indexOf_cons_ne _ hxa,
          List.indexOf_cons_ne _ hxb, Nat.succ_lt_succ_iff]
        exact ih a b ha' hlt hpa hpb
      · rw [List.filter_cons_of_neg (by simpa using hpx)]
        exact ih a b ha' hlt hpa hpb

/-- **C3.** For every duplicate-free subset `S` of `Modules`, `orderModules S`
is a permutation of `S` in which every module appears after each of its
prerequisites (per `MODULE_DEPENDENCIES`) that is also in `S`. -/
theorem orderModules_topological (S : List Modules) (hS : S.Nodup) :
    (orderModules S).Perm S ∧
      ∀ m ∈ orderModules S, ∀ p ∈ MODULE_DEPENDENCIES m, p ∈ S →
        (orderModules S).indexOf p < (orderModules S).indexOf m := by
  constructor
  · apply List.perm_of_nodup_nodup_toFinset_eq
      (List.Nodup.filter _ EXPORT_ORDER_nodup) hS
    ext x
    simp only [List.mem_toFinset, List.mem_filter, List.elem_eq_mem,
      decide_eq_true_eq]
    exact ⟨fun h => h.2, fun h => ⟨mem_EXPORT_ORDER x, h⟩⟩
  · intro m hm p hp hpS
    have hmS : m ∈ S := by
      have := (List.mem_filter.mp hm).2
      simpa using this
    exact indexOf_filter_lt _ EXPORT_ORDER (p) m (mem_EXPORT_ORDER p)
      (MODULE_DEPENDENCIES_before m p hp) (by simpa using hpS) (by simpa using hmS)

/-- Witness for C3 at `S = [entries, stack]`: the output is the permutation
`[stack, entries]` and `stack` (a prerequisite of `entries`) comes first. -/
theorem orderModules_topological_witness :
    (orderModules [Modules.entries, Modules.stack]).Perm
        [Modules.entries, Modules.stack] ∧
      ∀ m ∈ orderModules [Modules.entries, Modules.stack],
        ∀ p ∈ MODULE_DEPENDENCIES m, p ∈ [Modules.entries, Modules.stack] →
          (orderModules [Modules.entries, Modules.stack]).indexOf p <
            (orderModules [Modules.entries, Modules.stack]).indexOf m :=
  orderModules_topological [Modules.entries, Modules.stack] (by decide)

/-!
## `QueryParser` strict validation

Query filter values are modelled as a JSON-like tree.  `validateQueryOperators`
walks an object's entries: a `$`-prefixed key outside the supported-operator
list throws a `CLIError` (here `Except.error` with the exact message); every
object- or array-valued entry is recursed into (`typeof value === 'object' &&
value !== null` also holds for arrays, whose index keys never start with `$`).
`validateModuleQuery` runs the operator walk and then the field walk whenever
the module's definition carries a `queryConfig`.
-/

/-- `key.startsWith('$')` (for the single-character needle this is exactly a
first-character test, which the kernel can evaluate). -/
def startsWithDollar (k : String) : Bool :=
  match k.data with
  | [] => false
  | c :: _ => c = ('$')

inductive QVal : Type where
  | num : Int → QVal
  | str : String → QVal
  | bool : Bool → QVal
  | null : QVal
  | arr : List QVal → QVal
  | obj : List (String × QVal) → QVal

/-- The message of the `CLIError` thrown by `validateQueryOperators`. -/
def opErrorMsg (k : String) (ops : List String) : String :=
  ("Invalid query operator: ") ++ k ++ (". Supported operators: ") ++
    String.intercalate (", ") ops

mutual
def validateOpsObj (ops : List String) : List (String × QVal) → Except String Unit
  | [] => Except.ok ()
  | (k, v) :: rest =>
    if startsWithDollar k ∧ k ∉ ops then
      Except.error (opErrorMsg k ops)
    else
      match validateOpsVal ops v with
      | Except.error e => Except.error e
      | Except.ok _ => validateOpsObj ops rest
termination_by structural q => q

def validateOpsVal (ops : List String) : QVal → Except String Unit
  | .obj entries => validateOpsObj ops entries
  | .arr elems => validateOpsArr ops elems
  | .num _ => Except.ok ()
  | .str _ => Except.ok ()
  | .bool _ => Except.ok ()
  | .null => Except.ok ()
termination_by structural v => v

def validateOpsArr (ops : List String) : List QVal → Except String Unit
  | [] => Except.ok ()
  | v :: rest =>
    match validateOpsVal ops v with
    | Except.error e => Except.error e
    | Except.ok _ => validateOpsArr ops rest
termination_by structural l => l
end

/-- The message of the `CLIError` thrown by `validateQueryFields`. -/
def fieldErrorMsg (k moduleName : String) (fields : List String) : String :=
  ("Invalid query field ") ++ k ++ (" for module ") ++ moduleName ++
    (". Supported fields: ") ++ String.intercalate (", ") fields

mutual
def validateFieldsObj (fields defaultOps : List String) (moduleName : String) :
    List (String × QVal) → Except String Unit
  | [] => Except.ok ()
  | (k, v) :: rest =>
    if ¬ startsWithDollar k ∧ k ∉ fields then
      Except.error (fieldErrorMsg k moduleName fields)
    else
      match
        (if ¬ startsWithDollar k then
          match v with
          | .obj entries => validateOpsObj defaultOps entries
          | .arr elems => validateOpsArr defaultOps elems
          | _ => Except.ok ()
        else Except.ok ()) with
      | Except.error e => Except.error e
      | Except.ok _ => validateFieldsObj fields defaultOps moduleName rest
end

/-- Per-module `queryConfig` of a `ModuleDefinition`. -/
structure ModuleQueryConfig where
  supportedOperators : List String
  supportedFields : List String

/-- `validateModuleQuery(moduleName, moduleQuery)`: with no `queryConfig`
nothing is validated; otherwise operators are validated first, then fields. -/
def validateModuleQuery (cfg : Option ModuleQueryConfig) (defaultOps : List String)
    (moduleName : String) (q : List (String × QVal)) : Except String Unit :=
  match cfg with
  | none => Except.ok ()
  | some c =>
    match validateOpsObj c.supportedOperators q with
    | Except.error e => Except.error e
    | Except.ok _ => validateFieldsObj c.supportedFields defaultOps moduleName q

/-!
Mirror of the reach of `validateQueryOperators`: `hasBadOpObj` decides whether
a `$`-prefixed key outside `ops` occurs anywhere in the walked tree.
-/

mutual
def hasBadOpObj (ops : List String) : List (String × QVal) → Bool
  | [] => false
  | (k, v) :: rest =>
    (startsWithDollar k && !(ops.contains k)) || hasBadOpVal ops v ||
      hasBadOpObj ops rest
termination_by structural q => q

def hasBadOpVal (ops : List String) : QVal → Bool
  | .obj entries => hasBadOpObj ops entries
  | .arr elems => hasBadOpArr ops elems
  | .num _ => false
  | .str _ => false
  | .bool _ => false
  | .null => false
termination_by structural v => v

def hasBadOpArr (ops : List String) : List QVal → Bool
  | [] => false
  | v :: rest => hasBadOpVal ops v || hasBadOpArr ops rest
termination_by structural l => l
end

mutual
theorem validateOpsObj_error_of_bad : ∀ (ops : List String)
    (q : List (String × QVal)), hasBadOpObj ops q = true →
    ∃ k, startsWithDollar k = true ∧ k ∉ ops ∧
      validateOpsObj ops q = Except.error (opErrorMsg k ops)
  | ops, [] => by intro h; rw [hasBadOpObj] at h; cases h
  | ops, (k, v) :: rest => by
    intro h
    rw [hasBadOpObj] at h
    rw [validateOpsObj]
    by_cases hk : startsWithDollar k ∧ k ∉ ops
    · exact ⟨k, hk.1, hk.2, by rw [if_pos hk]⟩
    · rw [if_neg hk]
      have hk' : (startsWithDollar k && !(ops.contains k)) = false := by
        rw [Bool.and_eq_false_iff]
        by_cases h1 : startsWithDollar k
        · right
          rw [Bool.not_eq_false']
          by_cases h2 : k ∈ ops
          · simpa using h2
          · exact absurd ⟨h1, h2⟩ hk
        · left; simpa using h1
      rw [hk', Bool.false_or, Bool.or_eq_true] at h
      cases h with
      | inl hv =>
        obtain ⟨k', h1, h2, h3⟩ := validateOpsVal_error_of_bad ops v hv
        exact ⟨k', h1, h2, by rw [h3]⟩
      | inr hr =>
        obtain ⟨k', h1, h2, h3⟩ := validateOpsObj_error_of_bad ops rest hr
        cases hv : validateOpsVal ops v with
        | error e =>
          obtain ⟨k'', g1, g2, g3⟩ := validateOpsVal_ok_or_bad ops v e hv
          have he := hv.symm.trans g3
          injection he with he
          exact ⟨k'', g1, g2, congrArg Except.error he⟩
        | ok u => exact ⟨k', h1, h2, h3⟩

theorem validateOpsVal_error_of_bad : ∀ (ops : List String) (v : QVal),
    hasBadOpVal ops v = true →
    ∃ k, startsWithDollar k = true ∧ k ∉ ops ∧
      validateOpsVal ops v = Except.error (opErrorMsg k ops)
  | ops, .obj entries => by
    intro h
    rw [hasBadOpVal] at h
    rw [validateOpsVal]
    exact validateOpsObj_error_of_bad ops entries h
  | ops, .arr elems => by
    intro h
    rw [hasBadOpVal] at h
    rw [validateOpsVal]
    exact validateOpsArr_error_of_bad ops elems h
  | ops, .num n => by intro h; rw [hasBadOpVal] at h; cases h
  | ops, .str s => by intro h; rw [hasBadOpVal] at h; cases h
  | ops, .bool b => by intro h; rw [hasBadOpVal] at h; cases h
  | ops, .null => by intro h; rw [hasBadOpVal] at h; cases h

theorem validateOpsArr_error_of_bad : ∀ (ops : List String) (l : List QVal),
    hasBadOpArr ops l = true →
    ∃ k, startsWithDollar k = true ∧ k ∉ ops ∧
      validateOpsArr ops l = Except.error (opErrorMsg k ops)
  | ops, [] => by intro h; rw [hasBadOpArr] at h; cases h
  | ops, v :: rest => by
    intro h
    rw [hasBadOpArr, Bool.or_eq_true] at h
    rw [validateOpsArr]
    cases h with
    | inl hv =>
      obtain ⟨k', h1, h2, h3⟩ := validateOpsVal_error_of_bad ops v hv
      exact ⟨k', h1, h2, by rw [h3]⟩
    | inr hr =>
      obtain ⟨k', h1, h2, h3⟩ := validateOpsArr_error_of_bad ops rest hr
      cases hv : validateOpsVal ops v with
      | error e =>
        obtain ⟨k'', g1, g2, g3⟩ := validateOpsVal_ok_or_bad ops v e hv
        have he := hv.symm.trans g3
        injection he with he
        exact ⟨k'', g1, g2, congrArg Except.error he⟩
      | ok u => exact ⟨k', h1, h2, h3⟩

theorem validateOpsVal_ok_or_bad : ∀ (ops : List String) (v : QVal) (e : String),
    validateOpsVal ops v = Except.error e →
    ∃ k, startsWithDollar k = true ∧ k ∉ ops ∧
      validateOpsVal ops v = Except.error (opErrorMsg k ops)
  | ops, v, e => by
    intro h
    apply validateOpsVal_error_of_bad
    by_contra hb
    rw [Bool.not_eq_true] at hb
    have := validateOpsVal_ok_of_good ops v hb
    rw [h] at this
    cases this

theorem validateOpsVal_ok_of_good : ∀ (ops : List String) (v : QVal),
    hasBadOpVal ops v = false → validateOpsVal ops v = Except.ok ()
  | ops, .obj entries => by
    intro h
    rw [hasBadOpVal] at h
    rw [validateOpsVal]
    exact validateOpsObj_ok_of_good ops entries h
  | ops, .arr elems => by
    intro h
    rw [hasBadOpVal] at h
    rw [validateOpsVal]
    exact validateOpsArr_ok_of_good ops elems h
  | ops, .num n => by intro h; rw [validateOpsVal]
  | ops, .str s => by intro h; rw [validateOpsVal]
  | ops, .bool b => by intro h; rw [validateOpsVal]
  | ops, .null => by intro h; rw [validateOpsVal]

theorem validateOpsObj_ok_of_good : ∀ (ops : List String)
    (q : List (String × QVal)), hasBadOpObj ops q = false →
    validateOpsObj ops q = Except.ok ()
  | ops, [] => by intro h; rw [validateOpsObj]
  | ops, (k, v) :: rest => by
    intro h
    rw [hasBadOpObj] at h
    simp only [Bool.or_eq_false_iff] at h
    obtain ⟨⟨hk, hv⟩, hr⟩ := h
    rw [validateOpsObj]
    have hcond : ¬ (startsWithDollar k ∧ k ∉ ops) := by
      rw [Bool.and_eq_false_iff] at hk
      rintro ⟨h1, h2⟩
      cases hk with
      | inl h3 => rw [h1] at h3; cases h3
      | inr h3 =>
        rw [Bool.not_eq_false'] at h3
        exact h2 (by simpa using h3)
    rw [if_neg hcond, validateOpsVal_ok_of_good ops v hv]
    exact validateOpsObj_ok_of_good ops rest hr

theorem validateOpsArr_ok_of_good : ∀ (ops : List String) (l : List QVal),
    hasBadOpArr ops l = false → validateOpsArr ops l = Except.ok ()
  | ops, [] => by intro h; rw [validateOpsArr]
  | ops, v :: rest => by
    intro h
    rw [hasBadOpArr] at h
    simp only [Bool.or_eq_false_iff] at h
    rw [validateOpsArr, validateOpsVal_ok_of_good ops v h.1]
    exact validateOpsArr_ok_of_good ops rest h.2
end

/-- The allowed-operator set of the spec. -/
def specOperators : List String :=
  [("$eq"), ("$ne"), ("$lt"), ("$lte"), ("$gt"), ("$gte"), ("$in"), ("$nin"),
   ("$exists"), ("$regex"), ("$all"), ("$and"), ("$or"), ("$not"), ("$nor")]

/-- **C7.** The module query `{"$badop": 1}` of
`{"modules":{"content-types":{"$badop":1}}}`, validated against a module
`queryConfig` whose operator list lacks `$badop`, fails with the `CLIError`
naming `$badop` and listing the valid operators; and in general every
`$`-prefixed key anywhere in a module query that is outside the supported
list makes `validateModuleQuery` fail with such a message. -/
theorem validateModuleQuery_rejects_bad_operator :
    validateModuleQuery
        (some ⟨specOperators, [("title"), ("uid"), ("description")]⟩)
        specOperators ("content-types") [(("$badop"), QVal.num 1)] =
      Except.error (opErrorMsg ("$badop") specOperators) ∧
      ∀ (c : ModuleQueryConfig) (defaultOps : List String) (moduleName : String)
        (q : List (String × QVal)),
        hasBadOpObj c.supportedOperators q = true →
        ∃ k, startsWithDollar k = true ∧ k ∉ c.supportedOperators ∧
          validateModuleQuery (some c) defaultOps moduleName q =
            Except.error (opErrorMsg k c.supportedOperators) := by
  constructor
  · rfl
  · intro c defaultOps moduleName q hbad
    obtain ⟨k, h1, h2, h3⟩ := validateOpsObj_error_of_bad c.supportedOperators q hbad
    refine ⟨k, h1, h2, ?_⟩
    rw [validateModuleQuery, h3]

/-- Witness for C7's general part, at a nested occurrence of `$badop`. -/
theorem validateModuleQuery_rejects_bad_operator_witness :
    hasBadOpObj specOperators
        [(("title"), QVal.obj [(("$badop"), QVal.num 1)])] = true ∧
      ∃ k, startsWithDollar k = true ∧ k ∉ specOperators ∧
        validateModuleQuery (some ⟨specOperators, [("title")]⟩) specOperators
            ("content-types") [(("title"), QVal.obj [(("$badop"), QVal.num 1)])] =
          Except.error (opErrorMsg k specOperators) :=
  ⟨by decide,
    validateModuleQuery_rejects_bad_operator.2
      ⟨specOperators, [("title")]⟩ specOperators ("content-types")
      [(("title"), QVal.obj [(("$badop"), QVal.num 1)])] (by decide)⟩

/-!
## `QueryExporter.exportReferencedAssets`

The batch loop slices the discovered asset-UID list into `totalBatches =
Math.ceil(assetUIDs.length / batchSize)` slices
`assetUIDs.slice(i*batchSize, min((i+1)*batchSize, length))`.  Before the loop,
when `assetUIDs.length <= batchSize`, a whole-list export is issued as well
(and the loop still runs).  Per batch the exporter writes `assets.json` with
one record per requested UID under the keys `"1" … "n"` (the fetch
collaborator returns one record per UID; the model keeps keys as the naturals
the source prints with `toString`).  The merge initialises the temp file with
batch 1's content and appends later batches under keys continuing from
`Object.keys(tempAssets).length + 1`; metadata keys are merged first-wins.
-/

/-- `(n, x) (n+1, x') …`: the keyed records of one written `assets.json`
continued from key `n`. -/
def enumFrom (n : Nat) : List String → List (Nat × String)
  | [] => []
  | x :: xs => (n, x) :: enumFrom (n + 1) xs

/-- The batch slices of the `for (let i = 0; i < totalBatches; i++)` loop. -/
def assetBatches (assetUIDs : List String) (batchSize : Nat) : List (List String) :=
  (List.range ((assetUIDs.length + batchSize - 1) / batchSize)).map
    (fun i => (assetUIDs.drop (i * batchSize)).take batchSize)

/-- The merged `assets.json` built through the temp file. -/
def mergeAssetBatches (batches : List (List String)) : List (Nat × String) :=
  batches.foldl (fun temp batch => temp ++ enumFrom (temp.length + 1) batch) []

/-- The merged `metadata.json`: batch 1's keys, then later batches' keys that
are not present yet. -/
def mergeMetadataBatches (batches : List (List String)) : List String :=
  batches.foldl (fun temp batch =>
    temp ++ batch.filter (fun k => !(temp.contains k))) []

/-- `exportReferencedAssets`: the export calls issued (each a UID list passed
to `exportModule('assets', …)`), the final merged `assets.json`, and the final
merged `metadata.json` keys. -/
def exportReferencedAssetsRun (assetUIDs : List String) (batchSize : Nat) :
    List (List String) × List (Nat × String) × List String :=
  if assetUIDs.length = 0 then ([], [], [])
  else
    let preCalls := if assetUIDs.length ≤ batchSize then [assetUIDs] else []
    let batches := assetBatches assetUIDs batchSize
    (preCalls ++ batches, mergeAssetBatches batches, mergeMetadataBatches batches)

theorem enumFrom_map_snd (n : Nat) (l : List String) :
    (enumFrom n l).map Prod.snd = l := by
  induction l generalizing n with
  | nil => rfl
  | cons x xs ih => rw [enumFrom, List.map_cons, ih]

theorem enumFrom_map_fst (n : Nat) (l : List String) :
    (enumFrom n l).map Prod.fst = List.range' n l.length := by
  induction l generalizing n with
  | nil => rfl
  | cons x xs ih => rw [enumFrom, List.map_cons, ih, List.length_cons, List.range']

theorem enumFrom_length (n : Nat) (l : List String) :
    (enumFrom n l).length = l.length := by
  induction l generalizing n with
  | nil => rfl
  | cons x xs ih => rw [enumFrom, List.length_cons, ih, List.length_cons]

theorem mergeAssetBatches_go (batches : List (List String)) :
    ∀ temp : List (Nat × String),
      (batches.foldl (fun temp batch =>
          temp ++ enumFrom (temp.length + 1) batch) temp) =
        temp ++ enumFrom (temp.length + 1) batches.flatten := by
  induction batches with
  | nil => intro temp; simp [enumFrom]
  | cons b bs ih =>
    intro temp
    rw [List.foldl_cons, ih, List.flatten_cons]
    have hsplit : ∀ (m : Nat) (l₁ l₂ : List String),
        enumFrom m (l₁ ++ l₂) = enumFrom m l₁ ++ enumFrom (m + l₁.length) l₂ := by
      intro m l₁
      induction l₁ generalizing m with
      | nil => intro l₂; simp [enumFrom]
      | cons x xs ih₁ =>
        intro l₂
        rw [List.cons_append, enumFrom, enumFrom, ih₁, List.length_cons]
        rw [List.cons_append]
        have : m + 1 + xs.length = m + (xs.length + 1) := by omega
        rw [this]
    rw [hsplit, List.append_assoc, List.length_append, enumFrom_length]
    have : temp.length + 1 + b.length = temp.length + b.length + 1 := by omega
    rw [this]

theorem mergeAssetBatches_eq (batches : List (List String)) :
    mergeAssetBatches batches = enumFrom 1 batches.flatten := by
  rw [mergeAssetBatches, mergeAssetBatches_go]
  simp

/-- **C6.** For 250 discovered asset UIDs and batch size 100 the run issues
exactly the 3 batch export calls with 100, 100 and 50 UIDs (no whole-list
pre-call), the batches cover the UID list exactly, and the merged
`assets.json` holds exactly 250 entries under pairwise-distinct keys, one per
UID. -/
theorem exportReferencedAssets_250_batches (uids : List String)
    (h : uids.length = 250) :
    (exportReferencedAssetsRun uids 100).1 = assetBatches uids 100 ∧
      (assetBatches uids 100).map List.length = [100, 100, 50] ∧
      (assetBatches uids 100).flatten = uids ∧
      ((exportReferencedAssetsRun uids 100).2.1).length = 250 ∧
      (((exportReferencedAssetsRun uids 100).2.1).map Prod.fst).Nodup ∧
      ((exportReferencedAssetsRun uids 100).2.1).map Prod.snd = uids := by
  have hne : ¬ uids.length = 0 := by omega
  have hgt : ¬ uids.length ≤ 100 := by omega
  have hbatches : assetBatches uids 100 =
      [uids.take 100, (uids.drop 100).take 100, (uids.drop 200).take 100] := by
    rw [assetBatches, h]
    rfl
  have hd200 : (uids.drop 100).drop 100 = uids.drop 200 := by
    rw [List.drop_drop]
  have hjoin : (assetBatches uids 100).flatten = uids := by
    rw [hbatches]
    show uids.take 100 ++ ((uids.drop 100).take 100 ++ ((uids.drop 200).take 100 ++ [])) = uids
    rw [List.append_nil, ← hd200]
    have h2 : ((uids.drop 100).drop 100).take 100 = (uids.drop 100).drop 100 := by
      apply List.take_of_length_le
      rw [List.length_drop, List.length_drop, h]
      omega
    rw [h2, List.take_append_drop, List.take_append_drop]
  have hrun : exportReferencedAssetsRun uids 100 =
      (assetBatches uids 100, mergeAssetBatches (assetBatches uids 100),
        mergeMetadataBatches (assetBatches uids 100)) := by
    rw [exportReferencedAssetsRun, if_neg hne]
    simp only [if_neg hgt, List.nil_append]
  have hmerge : mergeAssetBatches (assetBatches uids 100) = enumFrom 1 uids := by
    rw [mergeAssetBatches_eq, hjoin]
  refine ⟨by rw [hrun], ?_, hjoin, ?_, ?_, ?_⟩
  · rw [hbatches]
    simp only [List.map_cons, List.map_nil, List.length_take, List.length_drop, h]
    decide
  · rw [hrun]
    show (mergeAssetBatches (assetBatches uids 100)).length = 250
    rw [hmerge, enumFrom_length, h]
  · rw [hrun]
    show ((mergeAssetBatches (assetBatches uids 100)).map Prod.fst).Nodup
    rw [hmerge, enumFrom_map_fst]
    exact List.nodup_range' 1 uids.length
  · rw [hrun]
    show (mergeAssetBatches (assetBatches uids 100)).map Prod.snd = uids
    rw [hmerge, enumFrom_map_snd]

/-- Witness for C6 at 250 concrete UIDs. -/
theorem exportReferencedAssets_250_batches_witness :
    ((List.range 250).map toString).length = 250 ∧
      ((exportReferencedAssetsRun ((List.range 250).map toString) 100).2.1).length =
        250 :=
  ⟨by simp,
    (exportReferencedAssets_250_batches ((List.range 250).map toString)
      (by simp)).2.2.2.1⟩

/-- **C10.** Whenever the extracted asset-UID list is non-empty and no longer
than the batch size, the run issues the asset export twice with the same UID
list — once from the whole-list pre-check branch and again as batch 1 of the
loop — yet the final merged `assets.json` carries each UID's record exactly
once under distinct keys, and the merged `metadata.json` keys are exactly the
UID list. -/
theorem exportReferencedAssets_double_export (uids : List String) (bs : Nat)
    (h0 : uids ≠ []) (hle : uids.length ≤ bs) (hnd : uids.Nodup) :
    (exportReferencedAssetsRun uids bs).1 = [uids, uids] ∧
      ((exportReferencedAssetsRun uids bs).2.1).map Prod.snd = uids ∧
      (((exportReferencedAssetsRun uids bs).2.1).map Prod.fst).Nodup ∧
      (∀ u ∈ uids,
        (((exportReferencedAssetsRun uids bs).2.1).map Prod.snd).count u = 1) ∧
      (exportReferencedAssetsRun uids bs).2.2 = uids := by
  have hpos : 0 < uids.length := List.length_pos.mpr h0
  have hne : ¬ uids.length = 0 := by omega
  have hdiv : (uids.length + bs - 1) / bs = 1 := by
    apply Nat.div_eq_of_lt_le <;> omega
  have hslice : (uids.drop (0 * bs)).take bs = uids := by
    rw [Nat.zero_mul, List.drop_zero]
    exact List.take_of_length_le hle
  have hbatches : assetBatches uids bs = [uids] := by
    rw [assetBatches, hdiv]
    rw [show List.range 1 = [0] from rfl, List.map_cons, List.map_nil, hslice]
  have hrun : exportReferencedAssetsRun uids bs =
      ([uids, uids], enumFrom 1 uids, uids) := by
    rw [exportReferencedAssetsRun, if_neg hne]
    simp only [if_pos hle, hbatches]
    rw [mergeAssetBatches_eq, mergeMetadataBatches]
    simp
  rw [hrun]
  refine ⟨rfl, enumFrom_map_snd 1 uids, ?_, ?_, rfl⟩
  · rw [enumFrom_map_fst]
    exact List.nodup_range' 1 uids.length
  · intro u hu
    rw [enumFrom_map_snd]
    exact List.count_eq_one_of_mem hnd hu

/-- Witness for C10 at two UIDs and the default batch size 100. -/
theorem exportReferencedAssets_double_export_witness :
    (exportReferencedAssetsRun [("u1"), ("u2")] 100).1 =
        [[("u1"), ("u2")], [("u1"), ("u2")]] ∧
      (exportReferencedAssetsRun [("u1"), ("u2")] 100).2.2 = [("u1"), ("u2")] :=
  ⟨(exportReferencedAssets_double_export [("u1"), ("u2")] 100 (by decide)
      (by decide) (by decide)).1,
    (exportReferencedAssets_double_export [("u1"), ("u2")] 100 (by decide)
      (by decide) (by decide)).2.2.2.2⟩

/-!
## `QueryExporter.exportReferencedContentTypes`

The closure loop.  `graph` is the stack's content-type collection: the fetch
`exportModule('content-types', {uid: {$in: newUIDs}})` writes, and the loop
reads back, the records of `graph` whose `uid` is in `newUIDs` (`fetchCTs`).
Fuel counts the remaining `while` iterations
(`maxCTReferenceDepth - iterationCount`).  A run returns the final
`exportedContentTypeUIDs` set, the list of `newReferencedUIDs` batches passed
to the fetch, and the number of iterations executed; `none` models the walker
throwing inside `extractReferencedContentTypes`.
-/

def fetchCTs (graph : List ContentTypeRec) (uids : List String) : List ContentTypeRec :=
  graph.filter (fun ct => uids.contains ct.uid)

def refCTLoop (graph : List ContentTypeRec) :
    Nat → List ContentTypeRec → List String →
      Option (List String × List (List String) × Nat)
  | 0, _, exported => some (exported, [], 0)
  | fuel + 1, currentBatch, exported =>
    if currentBatch.isEmpty then some (exported, [], 0)
    else
      let exported' := addAll exported (currentBatch.map ContentTypeRec.uid)
      match extractReferencedContentTypes currentBatch with
      | none => none
      | some referenced =>
        let newUIDs := referenced.filter (fun u => !(exported'.contains u))
        if newUIDs.isEmpty then some (exported', [], 1)
        else
          match refCTLoop graph fuel (fetchCTs graph newUIDs) exported' with
          | none => none
          | some (ex, batches, iters) => some (ex, newUIDs :: batches, iters + 1)

/-- `exportReferencedContentTypes`, starting from the initially exported
content types with an empty `exportedContentTypeUIDs` set. -/
def exportReferencedContentTypesRun (graph init : List ContentTypeRec)
    (maxCTReferenceDepth : Nat) :
    Option (List String × List (List String) × Nat) :=
  refCTLoop graph maxCTReferenceDepth init []

/-- The referenced set of a single record (empty when its walker throws or it
has no schema). -/
def refsOfCT (ct : ContentTypeRec) : List String :=
  (extractReferencedContentTypes [ct]).getD []

theorem refsOfCT_eq {ct : ContentTypeRec} {s : List Field} {refs : List String}
    (hs : ct.schema = some s) (hg : getReferencedContentTypes s = some refs) :
    refsOfCT ct = addAll [] refs := by
  rw [refsOfCT, extractReferencedContentTypes, extractRCTGo_cons_some hs, hg]
  rfl

theorem extractRCTGo_nodup : ∀ {batch : List ContentTypeRec}
    {acc r : List String}, acc.Nodup → extractRCTGo batch acc = some r →
    r.Nodup := by
  intro batch
  induction batch with
  | nil => intro acc r hnd h; rw [extractRCTGo] at h; cases h; exact hnd
  | cons ct cts ih =>
    intro acc r hnd h
    cases hs : ct.schema with
    | none => rw [extractRCTGo_cons_none hs] at h; exact ih hnd h
    | some s =>
      rw [extractRCTGo_cons_some hs] at h
      cases hg : getReferencedContentTypes s with
      | none => rw [hg] at h; cases h
      | some refs =>
        rw [hg] at h
        exact ih (addAll_nodup hnd) h

theorem extractRCTGo_mem_trace : ∀ {batch : List ContentTypeRec}
    {acc refs : List String}, extractRCTGo batch acc = some refs →
    ∀ u ∈ refs, u ∈ acc ∨ ∃ ct ∈ batch, u ∈ refsOfCT ct := by
  intro batch
  induction batch with
  | nil =>
    intro acc refs h u hu
    rw [extractRCTGo] at h
    cases h
    exact Or.inl hu
  | cons ct cts ih =>
    intro acc refs h u hu
    cases hs : ct.schema with
    | none =>
      rw [extractRCTGo_cons_none hs] at h
      cases ih h u hu with
      | inl h' => exact Or.inl h'
      | inr h' =>
        obtain ⟨ct', hct', hu'⟩ := h'
        exact Or.inr ⟨ct', List.mem_cons_of_mem _ hct', hu'⟩
    | some s =>
      rw [extractRCTGo_cons_some hs] at h
      cases hg : getReferencedContentTypes s with
      | none => rw [hg] at h; cases h
      | some refs₀ =>
        rw [hg] at h
        cases ih h u hu with
        | inl h' =>
          cases mem_addAll.mp h' with
          | inl h'' => exact Or.inl h''
          | inr h'' =>
            refine Or.inr ⟨ct, List.mem_cons_self _ _, ?_⟩
            rw [refsOfCT_eq hs hg]
            exact mem_addAll.mpr (Or.inr h'')
        | inr h' =>
          obtain ⟨ct', hct', hu'⟩ := h'
          exact Or.inr ⟨ct', List.mem_cons_of_mem _ hct', hu'⟩

/-- The combined loop invariant: iteration bound, duplicate-freedom of the
exported set, pairwise-disjoint duplicate-free fetch batches, fetched UIDs
fresh w.r.t. the incoming state, and growth of the exported set. -/
theorem refCTLoop_spec (graph : List ContentTypeRec) (U : List ContentTypeRec)
    (hcl : ∀ ct ∈ U, ∀ u ∈ refsOfCT ct, u ∈ graph.map ContentTypeRec.uid)
    (hgU : ∀ ct ∈ graph, ct ∈ U) :
    ∀ (fuel : Nat) (batch : List ContentTypeRec) (exported ex : List String)
      (batches : List (List String)) (iters : Nat),
      (∀ ct ∈ batch, ct ∈ U) → exported.Nodup →
      refCTLoop graph fuel batch exported = some (ex, batches, iters) →
      iters ≤ fuel ∧ ex.Nodup ∧ batches.flatten.Nodup ∧
        (∀ u ∈ batches.flatten,
          u ∉ exported ∧ u ∉ batch.map ContentTypeRec.uid) ∧
        exported ⊆ ex := by
  intro fuel
  induction fuel with
  | zero =>
    intro batch exported ex batches iters hbU hnd h
    rw [refCTLoop] at h
    cases h
    exact ⟨Nat.le_refl 0, hnd, List.nodup_nil, by simp, fun _ hx => hx⟩
  | succ fuel ih =>
    intro batch exported ex batches iters hbU hnd h
    rw [refCTLoop] at h
    by_cases hemp : batch.isEmpty
    · rw [if_pos hemp] at h
      cases h
      exact ⟨Nat.zero_le _, hnd, List.nodup_nil, by simp, fun _ hx => hx⟩
    · rw [if_neg hemp] at h
      simp only at h
      cases hext : extractReferencedContentTypes batch with
      | none => rw [hext] at h; cases h
      | some referenced =>
        rw [hext] at h
        simp only at h
        by_cases hnew :
            (referenced.filter (fun u =>
              !((addAll exported (batch.map ContentTypeRec.uid)).contains u))).isEmpty
        · rw [if_pos hnew] at h
          cases h
          exact ⟨Nat.succ_le_succ (Nat.zero_le _), addAll_nodup hnd,
            List.nodup_nil, by simp, subset_addAll_left⟩
        · rw [if_neg hnew] at h
          cases hrec : refCTLoop graph fuel
              (fetchCTs graph
                (referenced.filter (fun u =>
                  !((addAll exported (batch.map ContentTypeRec.uid)).contains u))))
              (addAll exported (batch.map ContentTypeRec.uid)) with
          | none => rw [hrec] at h; cases h
          | some res =>
            obtain ⟨ex', batches', iters'⟩ := res
            rw [hrec] at h
            dsimp only at h
            rw [Option.some.injEq, Prod.mk.injEq, Prod.mk.injEq] at h
            obtain ⟨rfl, rfl, rfl⟩ := h
            set exported' := addAll exported (batch.map ContentTypeRec.uid) with hexported'
            set newUIDs := referenced.filter (fun u => !(exported'.contains u)) with hnewUIDs
            have hbatch'U : ∀ ct ∈ fetchCTs graph newUIDs, ct ∈ U := by
              intro ct hct
              exact hgU ct (List.mem_filter.mp hct).1
            obtain ⟨h1, h2, h3, h4, h5⟩ := ih (fetchCTs graph newUIDs) exported'
              ex' batches' iters' hbatch'U (addAll_nodup hnd) hrec
            have hnewNodup : newUIDs.Nodup := by
              apply List.Nodup.filter
              exact extractRCTGo_nodup List.nodup_nil hext
            have hnewFresh : ∀ u ∈ newUIDs, u ∉ exported' := by
              intro u hu
              have := (List.mem_filter.mp hu).2
              simpa using this
            have hnewGraph : ∀ u ∈ newUIDs, u ∈ graph.map ContentTypeRec.uid := by
              intro u hu
              have humem : u ∈ referenced := (List.mem_filter.mp hu).1
              cases extractRCTGo_mem_trace hext u humem with
              | inl h' => cases h'
              | inr h' =>
                obtain ⟨ct, hct, hu'⟩ := h'
                exact hcl ct (hbU ct hct) u hu'
            have hnewFetched : ∀ u ∈ newUIDs,
                u ∈ (fetchCTs graph newUIDs).map ContentTypeRec.uid := by
              intro u hu
              obtain ⟨ct, hct, hctu⟩ := List.mem_map.mp (hnewGraph u hu)
              refine List.mem_map.mpr ⟨ct, ?_, hctu⟩
              refine List.mem_filter.mpr ⟨hct, ?_⟩
              rw [hctu]
              simpa using hu
            refine ⟨Nat.succ_le_succ h1, h2, ?_, ?_, ?_⟩
            · rw [List.flatten_cons]
              apply List.Nodup.append hnewNodup h3
              intro u hu hu'
              exact (h4 u hu').2 (hnewFetched u hu)
            · intro u hu
              rw [List.flatten_cons, List.mem_append] at hu
              cases hu with
              | inl hu =>
                have hfresh := hnewFresh u hu
                constructor
                · intro hx; exact hfresh (subset_addAll_left hx)
                · intro hx; exact hfresh (subset_addAll_right hx)
              | inr hu =>
                have hin := h4 u hu
                constructor
                · intro hx; exact hin.1 (subset_addAll_left hx)
                · intro hx; exact hin.1 (subset_addAll_right hx)
            · exact fun x hx => h5 (subset_addAll_left hx)

/-- **C1.** For every finite content-type graph (closed under references, so
that every referenced UID names a record of the graph — mutual references
included) and every iteration cap, the closure loop performs at most
`maxCTReferenceDepth` iterations, `exportedContentTypeUIDs` never holds a
duplicate UID, and the UID batches passed to the fetch are duplicate-free and
pairwise disjoint: each UID is fetched at most once. -/
theorem exportReferencedContentTypes_closure_bounded
    (graph init : List ContentTypeRec) (maxCTReferenceDepth : Nat)
    (hcl : ∀ ct ∈ init ++ graph,
      ∀ u ∈ refsOfCT ct, u ∈ graph.map ContentTypeRec.uid)
    (ex : List String) (batches : List (List String)) (iters : Nat)
    (h : exportReferencedContentTypesRun graph init maxCTReferenceDepth =
      some (ex, batches, iters)) :
    iters ≤ maxCTReferenceDepth ∧ ex.Nodup ∧ batches.flatten.Nodup := by
  obtain ⟨h1, h2, h3, -, -⟩ :=
    refCTLoop_spec graph (init ++ graph) hcl
      (fun ct hct => List.mem_append.mpr (Or.inr hct))
      maxCTReferenceDepth init [] ex batches iters
      (fun ct hct => List.mem_append.mpr (Or.inl hct))
      List.nodup_nil h
  exact ⟨h1, h2, h3⟩

/-- Witness for C1 on the mutual-reference graph `a → b`, `b → a` of the
claim: two iterations, exported set `{a, b}`, one singleton fetch. -/
theorem exportReferencedContentTypes_closure_bounded_witness :
    2 ≤ 10 ∧ (["a", "b"] : List String).Nodup ∧
      ([[("b")]] : List (List String)).flatten.Nodup :=
  exportReferencedContentTypes_closure_bounded
    [⟨("a"), some [Field.mk ("reference") (some [("b")]) none false false
        none none false [] []]⟩,
     ⟨("b"), some [Field.mk ("reference") (some [("a")]) none false false
        none none false [] []]⟩]
    [⟨("a"), some [Field.mk ("reference") (some [("b")]) none false false
        none none false [] []]⟩]
    10 (by decide) ["a", "b"] [[("b")]] 2 (by decide)

/-!
## `AssetReferenceHandler.extractAssetUIDsFromString`

The content is a character list; the two patterns are run as left-to-right
`/g` scans.

Pattern 1, `/<img asset_uid=\\"([^"]+)\\"/g`: at a match position the literal
`<img asset_uid=\"` is followed by the greedy non-quote run; after
backtracking the capture is that run without its final character, which must
be a backslash, with the run's terminating quote following.  The scan resumes
after the consumed `\"`.

Pattern 2 (production branch),
`(https://(assets|(eu-|azure-na-|azure-eu-|gcp-na-|gcp-eu-)?images).contentstack.(io|com)/v3/assets/(.*?)/(.*?)/(.*?)/(.*?)(?="))`
with capture 6: after `https://`, the host alternatives are tried in the
regex's order; the unescaped dots match any non-newline character; the four
lazy `(.*?)` groups split at the first following `/` (three times) and the
lookahead stops the fourth at the first `"`, which is not consumed — the scan
resumes at that quote.  Lazy groups are modelled by their first-split
semantics (a dot cannot cross a newline, so each segment must be
newline-free), which agrees with the engine on every serialized-entry input
considered here.  A failed attempt advances the scan by one character.

The scanners run on fuel (the content length) so that they stay structurally
recursive; `scan1`/`scan2` instantiate the fuel.
-/

/-- The literal `<img asset_uid=\"` of pattern 1. -/
def imgLit : List Char := ("<img asset_uid=").data ++ [('\\' : Char), ('"' : Char)]

/-- One attempt of pattern 1 at the current position: the capture and the
rest of the content after the match. -/
def tryMatch1 (l : List Char) : Option (List Char × List Char) :=
  if imgLit.isPrefixOf l then
    let r := l.drop imgLit.length
    let run := r.takeWhile (fun c => c ≠ ('"' : Char))
    match run.getLast? with
    | some lastc =>
      if lastc = ('\\' : Char) ∧ 2 ≤ run.length ∧
          (r.drop run.length).head? = some ('"' : Char) then
        some (run.dropLast, r.drop (run.length + 1))
      else none
    | none => none
  else none

/-- A lazy `(.*?)` followed by a consumed `stop` character (a dot cannot match
a newline): the segment and the rest after the stop character. -/
def takeSeg (stop : Char) : List Char → Option (List Char × List Char)
  | [] => none
  | c :: cs =>
    if c = stop then some ([], cs)
    else if c = ('\n' : Char) then none
    else
      match takeSeg stop cs with
      | some (seg, rest) => some (c :: seg, rest)
      | none => none

/-- A lazy `(.*?)(?=")`: the rest of the content starting at the first quote
(the lookahead consumes nothing). -/
def lazyToQuote : List Char → Option (List Char)
  | [] => none
  | c :: cs =>
    if c = ('"' : Char) then some (c :: cs)
    else if c = ('\n' : Char) then none
    else lazyToQuote cs

/-- The host alternatives of pattern 2, in the order the engine tries them. -/
def hostAlternatives : List (List Char) :=
  [("assets").data, ("eu-images").data, ("azure-na-images").data,
   ("azure-eu-images").data, ("gcp-na-images").data, ("gcp-eu-images").data,
   ("images").data]

/-- The pattern tail after the host: `.contentstack.(io|com)/v3/assets/`
followed by the four lazy groups; returns capture 6 and the rest of the
content at the lookahead quote. -/
def matchAfterHost (l : List Char) : Option (List Char × List Char) :=
  match l with
  | [] => none
  | c :: l1 =>
    if c ≠ ('\n' : Char) ∧ ("contentstack").data.isPrefixOf l1 then
      match l1.drop 12 with
      | [] => none
      | c2 :: l3 =>
        if c2 ≠ ('\n' : Char) then
          match
            (if ("io").data.isPrefixOf l3 then some (l3.drop 2)
             else if ("com").data.isPrefixOf l3 then some (l3.drop 3)
             else none) with
          | none => none
          | some l4 =>
            if ("/v3/assets/").data.isPrefixOf l4 then
              match takeSeg ('/') (l4.drop 11) with
              | none => none
              | some (_, l6) =>
                match takeSeg ('/') l6 with
                | none => none
                | some (uid, l7) =>
                  match takeSeg ('/') l7 with
                  | none => none
                  | some (_, l8) =>
                    match lazyToQuote l8 with
                    | none => none
                    | some rest => some (uid, rest)
            else none
        else none
    else none

/-- One attempt of pattern 2 at the current position. -/
def tryMatch2 (l : List Char) : Option (List Char × List Char) :=
  if ("https://").data.isPrefixOf l then
    hostAlternatives.foldr
      (fun h acc =>
        if h.isPrefixOf (l.drop 8) then
          match matchAfterHost ((l.drop 8).drop h.length) with
          | some res => some res
          | none => acc
        else acc)
      none
  else none

theorem takeSeg_length {stop : Char} : ∀ {l seg rest : List Char},
    takeSeg stop l = some (seg, rest) → rest.length < l.length := by
  intro l
  induction l with
  | nil => intro seg rest h; rw [takeSeg] at h; cases h
  | cons c cs ih =>
    intro seg rest h
    rw [takeSeg] at h
    by_cases hc : c = stop
    · rw [if_pos hc] at h
      cases h
      simp
    · rw [if_neg hc] at h
      by_cases hn : c = ('\n' : Char)
      · rw [if_pos hn] at h; cases h
      · rw [if_neg hn] at h
        cases hrec : takeSeg stop cs with
        | none => rw [hrec] at h; cases h
        | some p =>
          obtain ⟨seg', rest'⟩ := p
          rw [hrec] at h
          dsimp only at h
          rw [Option.some.injEq, Prod.mk.injEq] at h
          obtain ⟨-, rfl⟩ := h
          exact Nat.lt_trans (ih hrec) (by simp)

theorem lazyToQuote_length : ∀ {l rest : List Char},
    lazyToQuote l = some rest → rest.length ≤ l.length := by
  intro l
  induction l with
  | nil => intro rest h; rw [lazyToQuote] at h; cases h
  | cons c cs ih =>
    intro rest h
    rw [lazyToQuote] at h
    by_cases hc : c = ('"' : Char)
    · rw [if_pos hc] at h
      cases h
      exact Nat.le_refl _
    · rw [if_neg hc] at h
      by_cases hn : c = ('\n' : Char)
      · rw [if_pos hn] at h; cases h
      · rw [if_neg hn] at h
        exact Nat.le_trans (ih h) (by simp)

theorem matchAfterHost_length : ∀ {l uid rest : List Char},
    matchAfterHost l = some (uid, rest) → rest.length ≤ l.length := by
  intro l uid rest h
  match l with
  | [] => rw [matchAfterHost] at h; cases h
  | c :: l1 =>
    rw [matchAfterHost] at h
    by_cases h1 : c ≠ ('\n' : Char) ∧ ("contentstack").data.isPrefixOf l1
    case neg => rw [if_neg h1] at h; cases h
    rw [if_pos h1] at h
    match hdrop : l1.drop 12 with
    | [] => rw [hdrop] at h; cases h
    | c2 :: l3 =>
      rw [hdrop] at h
      dsimp only at h
      by_cases h2 : c2 ≠ ('\n' : Char)
      case neg => rw [if_neg h2] at h; cases h
      rw [if_pos h2] at h
      have hl3 : l3.length ≤ l1.length := by
        have := congrArg List.length hdrop
        simp only [List.length_drop, List.length_cons] at this
        omega
      rcases htld : (if ("io").data.isPrefixOf l3 then some (l3.drop 2)
          else if ("com").data.isPrefixOf l3 then some (l3.drop 3)
          else none) with - | l4
      · rw [htld] at h; cases h
      · rw [htld] at h
        dsimp only at h
        have hl4 : l4.length ≤ l3.length := by
          by_cases hio : ("io").data.isPrefixOf l3
          · rw [if_pos hio, Option.some.injEq] at htld
            subst htld; simp
          · rw [if_neg hio] at htld
            by_cases hcom : ("com").data.isPrefixOf l3
            · rw [if_pos hcom, Option.some.injEq] at htld
              subst htld; simp
            · rw [if_neg hcom] at htld; cases htld
        by_cases h3 : ("/v3/assets/").data.isPrefixOf l4
        case neg => rw [if_neg h3] at h; cases h
        rw [if_pos h3] at h
        cases hs1 : takeSeg ('/') (l4.drop 11) with
        | none => rw [hs1] at h; cases h
        | some p1 =>
          obtain ⟨s1, l6⟩ := p1
          rw [hs1] at h
          dsimp only at h
          cases hs2 : takeSeg ('/') l6 with
          | none => rw [hs2] at h; cases h
          | some p2 =>
            obtain ⟨s2, l7⟩ := p2
            rw [hs2] at h
            dsimp only at h
            cases hs3 : takeSeg ('/') l7 with
            | none => rw [hs3] at h; cases h
            | some p3 =>
              obtain ⟨s3, l8⟩ := p3
              rw [hs3] at h
              dsimp only at h
              cases hq : lazyToQuote l8 with
              | none => rw [hq] at h; cases h
              | some rest' =>
                rw [hq] at h
                dsimp only at h
                rw [Option.some.injEq, Prod.mk.injEq] at h
                obtain ⟨-, rfl⟩ := h
                have q1 := takeSeg_length hs1
                have q2 := takeSeg_length hs2
                have q3 := takeSeg_length hs3
                have q4 := lazyToQuote_length hq
                have hge : (l4.drop 11).length ≤ l4.length := by simp
                simp only [List.length_drop] at hge q1
                simp only [List.length_cons]
                omega

theorem tryMatch2_length : ∀ {l uid rest : List Char},
    tryMatch2 l = some (uid, rest) → rest.length < l.length := by
  intro l uid rest h
  rw [tryMatch2] at h
  by_cases hpre : ("https://").data.isPrefixOf l
  case neg => rw [if_neg hpre] at h; cases h
  rw [if_pos hpre] at h
  have hlen : 8 ≤ l.length := by
    have := (List.isPrefixOf_iff_prefix.mp hpre).length_le
    simpa using this
  have hfold : ∀ (alts : List (List Char)),
      (alts.foldr (fun halt acc =>
        if halt.isPrefixOf (l.drop 8) then
          match matchAfterHost ((l.drop 8).drop halt.length) with
          | some res => some res
          | none => acc
        else acc) none) = some (uid, rest) →
      rest.length < l.length := by
    intro alts
    induction alts with
    | nil => intro hf; cases hf
    | cons halt alts iha =>
      intro hf
      rw [List.foldr_cons] at hf
      by_cases hp : halt.isPrefixOf (l.drop 8)
      · rw [if_pos hp] at hf
        cases hm : matchAfterHost ((l.drop 8).drop halt.length) with
        | none => rw [hm] at hf; exact iha hf
        | some res =>
          rw [hm] at hf
          dsimp only at hf
          cases hf
          have := matchAfterHost_length hm
          simp only [List.length_drop] at this
          omega
      · rw [if_neg hp] at hf
        exact iha hf
  exact hfold hostAlternatives h

theorem tryMatch1_length : ∀ {l cap rest : List Char},
    tryMatch1 l = some (cap, rest) → rest.length < l.length := by
  intro l cap rest h
  rw [tryMatch1] at h
  by_cases hpre : imgLit.isPrefixOf l
  case neg => rw [if_neg hpre] at h; cases h
  rw [if_pos hpre] at h
  dsimp only at h
  have hlen : imgLit.length ≤ l.length := by
    have := (List.isPrefixOf_iff_prefix.mp hpre).length_le
    simpa using this
  have hlit : imgLit.length = 17 := by decide
  cases hlast : (l.drop imgLit.length).takeWhile
      (fun c => c ≠ ('"' : Char)) |>.getLast? with
  | none => rw [hlast] at h; cases h
  | some lastc =>
    rw [hlast] at h
    dsimp only at h
    by_cases hcond : lastc = ('\\' : Char) ∧
        2 ≤ ((l.drop imgLit.length).takeWhile (fun c => c ≠ ('"' : Char))).length ∧
        ((l.drop imgLit.length).drop
          ((l.drop imgLit.length).takeWhile (fun c => c ≠ ('"' : Char))).length).head? =
          some ('"' : Char)
    · rw [if_pos hcond] at h
      rw [Option.some.injEq, Prod.mk.injEq] at h
      obtain ⟨-, rfl⟩ := h
      simp only [List.length_drop]
      omega
    · rw [if_neg hcond] at h; cases h

def scan1Fuel : Nat → List Char → List (List Char)
  | 0, _ => []
  | fuel + 1, l =>
    match l with
    | [] => []
    | c :: cs =>
      match tryMatch1 (c :: cs) with
      | some (cap, rest) => cap :: scan1Fuel fuel rest
      | none => scan1Fuel fuel cs

def scan2Fuel : Nat → List Char → List (List Char)
  | 0, _ => []
  | fuel + 1, l =>
    match l with
    | [] => []
    | c :: cs =>
      match tryMatch2 (c :: cs) with
      | some (cap, rest) => cap :: scan2Fuel fuel rest
      | none => scan2Fuel fuel cs

/-- The pattern-1 `/g` scan. -/
def scan1 (l : List Char) : List (List Char) := scan1Fuel l.length l

/-- The pattern-2 `/g` scan. -/
def scan2 (l : List Char) : List (List Char) := scan2Fuel l.length l

/-- `extractAssetUIDsFromString(content)`: pattern-1 captures are added to the
`Set` first, then pattern-2 captures; `Array.from(set)` is returned. -/
def extractAssetUIDsFromString (content : List Char) : List String :=
  setList ((scan1 content ++ scan2 content).map (fun u => String.mk u))

theorem scan1Fuel_nil : ∀ fuel, scan1Fuel fuel [] = [] := by
  intro fuel
  cases fuel <;> rw [scan1Fuel]

theorem scan2Fuel_nil : ∀ fuel, scan2Fuel fuel [] = [] := by
  intro fuel
  cases fuel <;> rw [scan2Fuel]

theorem scan1Fuel_congr : ∀ (fuel₁ : Nat) (fuel₂ : Nat) (l : List Char),
    l.length ≤ fuel₁ → l.length ≤ fuel₂ → scan1Fuel fuel₁ l = scan1Fuel fuel₂ l := by
  intro fuel₁
  induction fuel₁ with
  | zero =>
    intro fuel₂ l h₁ h₂
    have : l = [] := List.length_eq_zero.mp (Nat.le_zero.mp h₁)
    subst this
    rw [scan1Fuel_nil, scan1Fuel_nil]
  | succ fuel ih =>
    intro fuel₂ l h₁ h₂
    cases l with
    | nil => rw [scan1Fuel_nil, scan1Fuel_nil]
    | cons c cs =>
      cases fuel₂ with
      | zero => simp at h₂
      | succ fuel₂' =>
        rw [scan1Fuel, scan1Fuel]
        cases hm : tryMatch1 (c :: cs) with
        | some p =>
          obtain ⟨cap, rest⟩ := p
          have hlt := tryMatch1_length hm
          simp only [List.length_cons] at hlt h₁ h₂
          dsimp only
          rw [ih fuel₂' rest (by omega) (by omega)]
        | none =>
          simp only [List.length_cons] at h₁ h₂
          exact ih fuel₂' cs (by omega) (by omega)

theorem scan2Fuel_congr : ∀ (fuel₁ : Nat) (fuel₂ : Nat) (l : List Char),
    l.length ≤ fuel₁ → l.length ≤ fuel₂ → scan2Fuel fuel₁ l = scan2Fuel fuel₂ l := by
  intro fuel₁
  induction fuel₁ with
  | zero =>
    intro fuel₂ l h₁ h₂
    have : l = [] := List.length_eq_zero.mp (Nat.le_zero.mp h₁)
    subst this
    rw [scan2Fuel_nil, scan2Fuel_nil]
  | succ fuel ih =>
    intro fuel₂ l h₁ h₂
    cases l with
    | nil => rw [scan2Fuel_nil, scan2Fuel_nil]
    | cons c cs =>
      cases fuel₂ with
      | zero => simp at h₂
      | succ fuel₂' =>
        rw [scan2Fuel, scan2Fuel]
        cases hm : tryMatch2 (c :: cs) with
        | some p =>
          obtain ⟨cap, rest⟩ := p
          have hlt := tryMatch2_length hm
          simp only [List.length_cons] at hlt h₁ h₂
          dsimp only
          rw [ih fuel₂' rest (by omega) (by omega)]
        | none =>
          simp only [List.length_cons] at h₁ h₂
          exact ih fuel₂' cs (by omega) (by omega)

theorem scan1_cons_match {c : Char} {cs cap rest : List Char}
    (h : tryMatch1 (c :: cs) = some (cap, rest)) :
    scan1 (c :: cs) = cap :: scan1 rest := by
  rw [scan1, List.length_cons, scan1Fuel, h]
  have hlt := tryMatch1_length h
  simp only [List.length_cons] at hlt
  dsimp only
  rw [scan1Fuel_congr cs.length rest.length rest (by omega) (Nat.le_refl _)]
  rfl

theorem scan1_cons_skip {c : Char} {cs : List Char}
    (h : tryMatch1 (c :: cs) = none) :
    scan1 (c :: cs) = scan1 cs := by
  rw [scan1, List.length_cons, scan1Fuel, h]
  rfl

theorem scan2_cons_match {c : Char} {cs cap rest : List Char}
    (h : tryMatch2 (c :: cs) = some (cap, rest)) :
    scan2 (c :: cs) = cap :: scan2 rest := by
  rw [scan2, List.length_cons, scan2Fuel, h]
  have hlt := tryMatch2_length h
  simp only [List.length_cons] at hlt
  dsimp only
  rw [scan2Fuel_congr cs.length rest.length rest (by omega) (Nat.le_refl _)]
  rfl

theorem scan2_cons_skip {c : Char} {cs : List Char}
    (h : tryMatch2 (c :: cs) = none) :
    scan2 (c :: cs) = scan2 cs := by
  rw [scan2, List.length_cons, scan2Fuel, h]
  rfl

theorem tryMatch1_none_of_head {c : Char} {cs : List Char} (h : c ≠ ('<')) :
    tryMatch1 (c :: cs) = none := by
  rw [tryMatch1, if_neg]
  intro hpre
  obtain ⟨t, ht⟩ := List.isPrefixOf_iff_prefix.mp hpre
  have he : imgLit = ('<') :: (("img asset_uid=").data ++
      [('\\' : Char), ('"' : Char)]) := by decide
  rw [he, List.cons_append] at ht
  exact h (List.cons.injEq .. ▸ ht).1.symm

theorem scan1_append_skip : ∀ (s rest : List Char),
    (∀ c ∈ s, c ≠ ('<')) → scan1 (s ++ rest) = scan1 rest := by
  intro s
  induction s with
  | nil => intro rest h; rw [List.nil_append]
  | cons c s' ih =>
    intro rest h
    rw [List.cons_append,
      scan1_cons_skip (tryMatch1_none_of_head (h c (by simp)))]
    exact ih rest fun x hx => h x (by simp [hx])

/-- A continuation produced by the token renderer: empty, or starting with a
marker's `<` or a URL's `h`. -/
def restOk (rest : List Char) : Prop :=
  rest = [] ∨ rest.head? = some ('<') ∨ rest.head? = some ('h')

theorem tryMatch2_none_within {c : Char} {s' rest : List Char}
    (hmem : c ≠ (':') ∧ ∀ x ∈ s', x ≠ (':')) (hrest : restOk rest) :
    tryMatch2 (c :: (s' ++ rest)) = none := by
  rw [tryMatch2, if_neg]
  intro hpre
  obtain ⟨t, ht⟩ := List.isPrefixOf_iff_prefix.mp hpre
  have hP : ("https://").data =
      [('h'), ('t'), ('t'), ('p'), ('s'), (':'), ('/'), ('/')] := by decide
  rw [hP] at ht
  have hget : ∀ i : Nat, ((c :: s') ++ rest).get? i =
      ([('h'), ('t'), ('t'), ('p'), ('s'), (':'), ('/'), ('/')] ++ t).get? i := by
    intro i
    rw [List.cons_append, ht]
  by_cases hlen : 6 ≤ (c :: s').length
  · have h5 := hget 5
    rw [List.get?_append (by omega)] at h5
    rw [List.get?_append (by decide)] at h5
    have : (c :: s').get? 5 = some (':') := by
      rw [h5]; decide
    have hmem5 : (':') ∈ c :: s' := List.get?_mem this
    cases List.mem_cons.mp hmem5 with
    | inl hx => exact hmem.1 hx.symm
    | inr hx => exact hmem.2 _ hx rfl
  · have hlen' : (c :: s').length ≤ 5 := by omega
    have hpos : 1 ≤ (c :: s').length := by simp
    have hlt8 : (c :: s').length < 8 := by omega
    have hr := hget (c :: s').length
    rw [List.get?_append_right (Nat.le_refl _)] at hr
    rw [Nat.sub_self] at hr
    rw [List.get?_append (by simpa using hlt8)] at hr
    -- rest.head? equals the pattern character at index (c :: s').length
    have hhead : rest.head? =
        [('h'), ('t'), ('t'), ('p'), ('s'), (':'), ('/'), ('/')].get?
          (c :: s').length := by
      rw [← hr, List.get?_zero]
    have hne : ∀ i : Nat, 1 ≤ i → i ≤ 5 →
        [('h'), ('t'), ('t'), ('p'), ('s'), (':'), ('/'), ('/')].get? i ≠ none ∧
        [('h'), ('t'), ('t'), ('p'), ('s'), (':'), ('/'), ('/')].get? i ≠
          some ('<') ∧
        [('h'), ('t'), ('t'), ('p'), ('s'), (':'), ('/'), ('/')].get? i ≠
          some ('h') := by
      intro i h1 h5
      interval_cases i <;> refine ⟨by decide, by decide, by decide⟩
    obtain ⟨hn1, hn2, hn3⟩ := hne (c :: s').length hpos hlen'
    cases hrest with
    | inl hr0 => rw [hr0] at hhead; exact hn1 hhead.symm
    | inr hr1 =>
      cases hr1 with
      | inl hr1 => rw [hr1] at hhead; exact hn2 hhead.symm
      | inr hr2 => rw [hr2] at hhead; exact hn3 hhead.symm

theorem scan2_append_skip : ∀ (s rest : List Char),
    (∀ c ∈ s, c ≠ (':')) → restOk rest → scan2 (s ++ rest) = scan2 rest := by
  intro s
  induction s with
  | nil => intro rest h hr; rw [List.nil_append]
  | cons c s' ih =>
    intro rest h hr
    rw [List.cons_append]
    rw [scan2_cons_skip (tryMatch2_none_within
      ⟨h c (by simp), fun x hx => h x (by simp [hx])⟩ hr)]
    exact ih rest (fun x hx => h x (by simp [hx])) hr

/-!
## Serialized inputs built from markers and hosted-asset URLs

A serialized string containing markers and URLs, in any order and with any
multiplicity, is the concatenation of token renders: an embedded-media marker
`<img asset_uid=\"<uid>\">` as it appears in JSON-stringified rich text, and a
hosted-asset URL `https://<host>.contentstack.<tld>/v3/assets/<stack>/<uid>/<version>/<filename>`
followed by its closing JSON quote.  Identifier segments are non-empty and
alphanumeric (`safeStr`), as real asset/stack UIDs are.
-/

inductive AssetToken : Type where
  | marker (uid : String)
  | url (host : Nat) (tld : Bool) (stack uid version fname : String)

def tldChars (tld : Bool) : List Char :=
  if tld then ("io").data else ("com").data

def hostChars (host : Nat) : List Char :=
  hostAlternatives.getD host (("images").data)

def renderToken : AssetToken → List Char
  | .marker uid =>
    imgLit ++ (uid.data ++ [('\\' : Char), ('"' : Char), ('>' : Char)])
  | .url host tld stack uid version fname =>
    ("https://").data ++ (hostChars host ++ (('.') :: (("contentstack").data ++
      ('.') :: (tldChars tld ++ (("/v3/assets/").data ++ (stack.data ++
      ('/') :: (uid.data ++ ('/') :: (version.data ++
      ('/') :: (fname.data ++ [('"' : Char)])))))))))

def renderTokens (ts : List AssetToken) : List Char :=
  (ts.map renderToken).flatten

def safeStr (s : String) : Bool :=
  !s.data.isEmpty && s.data.all Char.isAlphanum

def safeToken : AssetToken → Bool
  | .marker uid => safeStr uid
  | .url _ _ stack uid version fname =>
    safeStr stack && safeStr uid && safeStr version && safeStr fname

def markerUIDs (ts : List AssetToken) : List String :=
  ts.filterMap fun t =>
    match t with
    | .marker uid => some uid
    | .url _ _ _ _ _ _ => none

def urlUIDs (ts : List AssetToken) : List String :=
  ts.filterMap fun t =>
    match t with
    | .marker _ => none
    | .url _ _ _ uid _ _ => some uid

theorem alnum_facts {c : Char} (h : c.isAlphanum = true) :
    c ≠ ('"') ∧ c ≠ ('\\') ∧ c ≠ ('/') ∧ c ≠ ('\n') ∧ c ≠ ('<') ∧
      c ≠ (':') := by
  refine ⟨?_, ?_, ?_, ?_, ?_, ?_⟩ <;>
    (intro heq; rw [heq] at h; exact absurd h (by decide))

theorem safeStr_spec {s : String} (h : safeStr s = true) :
    s.data ≠ [] ∧ ∀ c ∈ s.data, c.isAlphanum = true := by
  rw [safeStr, Bool.and_eq_true] at h
  constructor
  · have := h.1
    intro hnil
    rw [hnil] at this
    cases this
  · intro c hc
    exact List.all_eq_true.mp h.2 c hc

theorem takeWhileAppend {p : Char → Bool} : ∀ {l₁ l₂ : List Char},
    (∀ c ∈ l₁, p c = true) →
    List.takeWhile p (l₁ ++ l₂) = l₁ ++ List.takeWhile p l₂ := by
  intro l₁
  induction l₁ with
  | nil => intro l₂ h; rw [List.nil_append, List.nil_append]
  | cons c l₁' ih =>
    intro l₂ h
    rw [List.cons_append, List.takeWhile_cons_of_pos (h c (by simp)),
      ih fun x hx => h x (by simp [hx]), List.cons_append]

theorem takeSeg_spec {stop : Char} : ∀ {seg rest : List Char},
    (∀ c ∈ seg, c ≠ stop ∧ c ≠ ('\n')) →
    takeSeg stop (seg ++ stop :: rest) = some (seg, rest) := by
  intro seg
  induction seg with
  | nil =>
    intro rest h
    rw [List.nil_append, takeSeg, if_pos rfl]
  | cons c seg' ih =>
    intro rest h
    rw [List.cons_append, takeSeg, if_neg (h c (by simp)).1,
      if_neg (h c (by simp)).2, ih fun x hx => h x (by simp [hx])]

theorem lazyToQuote_spec : ∀ {seg rest : List Char},
    (∀ c ∈ seg, c ≠ ('"') ∧ c ≠ ('\n')) →
    lazyToQuote (seg ++ ('"') :: rest) = some (('"') :: rest) := by
  intro seg
  induction seg with
  | nil =>
    intro rest h
    rw [List.nil_append, lazyToQuote, if_pos rfl]
  | cons c seg' ih =>
    intro rest h
    rw [List.cons_append, lazyToQuote, if_neg (h c (by simp)).1,
      if_neg (h c (by simp)).2]
    exact ih fun x hx => h x (by simp [hx])

theorem tryMatch1_marker {uid : String} {rest : List Char}
    (hsafe : safeStr uid = true) :
    tryMatch1 (renderToken (.marker uid) ++ rest) =
      some (uid.data, ('>') :: rest) := by
  obtain ⟨hne, halnum⟩ := safeStr_spec hsafe
  rw [renderToken, List.append_assoc]
  rw [tryMatch1, if_pos (List.isPrefixOf_iff_prefix.mpr ⟨_, rfl⟩)]
  dsimp only
  rw [List.drop_left]
  have hX : (uid.data ++ [('\\' : Char), ('"' : Char), ('>' : Char)]) ++ rest =
      (uid.data ++ [('\\' : Char)]) ++
        (('"') :: (('>') :: rest)) := by
    simp
  rw [hX]
  have hrun : List.takeWhile (fun c => decide (c ≠ ('"' : Char)))
      ((uid.data ++ [('\\' : Char)]) ++ (('"') :: (('>') :: rest))) =
      uid.data ++ [('\\' : Char)] := by
    rw [takeWhileAppend]
    · rw [List.takeWhile_cons_of_neg (by decide), List.append_nil]
    · intro c hc
      rw [List.mem_append] at hc
      cases hc with
      | inl hc => simpa using (alnum_facts (halnum c hc)).1
      | inr hc =>
        simp only [List.mem_singleton] at hc
        subst hc
        decide
  rw [hrun]
  have hlast : (uid.data ++ [('\\' : Char)]).getLast? = some ('\\' : Char) :=
    List.getLast?_concat _
  rw [hlast]
  dsimp only
  have hlen2 : 2 ≤ (uid.data ++ [('\\' : Char)]).length := by
    rw [List.length_append]
    have h1 : 1 ≤ uid.data.length := by
      cases hd : uid.data with
      | nil => exact absurd hd hne
      | cons a as => simp [hd]
    simp only [List.length_singleton]
    omega
  have hdropq : (((uid.data ++ [('\\' : Char)]) ++
        (('"') :: (('>') :: rest))).drop
      (uid.data ++ [('\\' : Char)]).length) = ('"') :: (('>') :: rest) :=
    List.drop_left _ _
  rw [if_pos ⟨rfl, hlen2, by rw [hdropq]; rfl⟩]
  have hdrop2 : (((uid.data ++ [('\\' : Char)]) ++
        (('"') :: (('>') :: rest))).drop
      ((uid.data ++ [('\\' : Char)]).length + 1)) = ('>') :: rest := by
    rw [show (uid.data ++ [('\\' : Char)]).length + 1 =
      ((uid.data ++ [('\\' : Char)]) ++ [('"' : Char)]).length by simp]
    rw [show ((uid.data ++ [('\\' : Char)]) ++ (('"') :: (('>') :: rest))) =
      (((uid.data ++ [('\\' : Char)]) ++ [('"' : Char)]) ++ (('>') :: rest)) by simp]
    exact List.drop_left _ _
  rw [hdrop2, List.dropLast_concat]

theorem matchAfterHost_render {tld : Bool} {stack uid version fname : String}
    {rest : List Char}
    (hstack : safeStr stack = true) (huid : safeStr uid = true)
    (hversion : safeStr version = true) (hfname : safeStr fname = true) :
    matchAfterHost (('.') :: (("contentstack").data ++
      ('.') :: (tldChars tld ++ (("/v3/assets/").data ++ (stack.data ++
      ('/') :: (uid.data ++ ('/') :: (version.data ++
      ('/') :: (fname.data ++ ('"') :: rest)))))))) =
      some (uid.data, ('"') :: rest) := by
  have hseg : ∀ (s : String), safeStr s = true →
      ∀ c ∈ s.data, c ≠ ('/') ∧ c ≠ ('\n') := by
    intro s hs c hc
    have h := (safeStr_spec hs).2 c hc
    exact ⟨(alnum_facts h).2.2.1, (alnum_facts h).2.2.2.1⟩
  rw [matchAfterHost]
  rw [if_pos ⟨by decide, List.isPrefixOf_iff_prefix.mpr ⟨_, rfl⟩⟩]
  rw [show (12 : Nat) = ("contentstack").data.length from rfl, List.drop_left]
  dsimp only
  rw [if_pos (by decide : ('.') ≠ ('\n' : Char))]
  have htld : (if ("io").data.isPrefixOf (tldChars tld ++
        (("/v3/assets/").data ++ (stack.data ++
        ('/') :: (uid.data ++ ('/') :: (version.data ++
        ('/') :: (fname.data ++ ('"') :: rest)))))) then
        some ((tldChars tld ++ (("/v3/assets/").data ++ (stack.data ++
          ('/') :: (uid.data ++ ('/') :: (version.data ++
          ('/') :: (fname.data ++ ('"') :: rest)))))).drop 2)
      else if ("com").data.isPrefixOf (tldChars tld ++
        (("/v3/assets/").data ++ (stack.data ++
        ('/') :: (uid.data ++ ('/') :: (version.data ++
        ('/') :: (fname.data ++ ('"') :: rest)))))) then
        some ((tldChars tld ++ (("/v3/assets/").data ++ (stack.data ++
          ('/') :: (uid.data ++ ('/') :: (version.data ++
          ('/') :: (fname.data ++ ('"') :: rest)))))).drop 3)
      else none) =
      some (("/v3/assets/").data ++ (stack.data ++
        ('/') :: (uid.data ++ ('/') :: (version.data ++
        ('/') :: (fname.data ++ ('"') :: rest))))) := by
    cases tld with
    | true =>
      rw [show tldChars true = ("io").data from rfl,
        if_pos (List.isPrefixOf_iff_prefix.mpr ⟨_, rfl⟩)]
      rw [show (2 : Nat) = (("io").data).length from rfl, List.drop_left]
    | false =>
      rw [show tldChars false = ("com").data from rfl]
      have hio : ¬ (("io").data.isPrefixOf (("com").data ++
          (("/v3/assets/").data ++ (stack.data ++
          ('/') :: (uid.data ++ ('/') :: (version.data ++
          ('/') :: (fname.data ++ ('"') :: rest)))))) = true) := by
        intro hpre
        obtain ⟨t, ht⟩ := List.isPrefixOf_iff_prefix.mp hpre
        rw [show ("io").data = ('i') :: [('o')] from rfl, List.cons_append] at ht
        rw [show (("com").data ++ (("/v3/assets/").data ++ (stack.data ++
          ('/') :: (uid.data ++ ('/') :: (version.data ++
          ('/') :: (fname.data ++ ('"') :: rest)))))) =
          ('c') :: (("om").data ++ (("/v3/assets/").data ++ (stack.data ++
          ('/') :: (uid.data ++ ('/') :: (version.data ++
          ('/') :: (fname.data ++ ('"') :: rest)))))) from rfl] at ht
        have hic := (List.cons.injEq .. ▸ ht).1
        exact absurd hic (by decide)
      rw [if_neg hio, if_pos (List.isPrefixOf_iff_prefix.mpr ⟨_, rfl⟩)]
      rw [show (3 : Nat) = (("com").data).length from rfl, List.drop_left]
  rw [htld]
  dsimp only
  rw [if_pos (List.isPrefixOf_iff_prefix.mpr ⟨_, rfl⟩)]
  rw [show (11 : Nat) = (("/v3/assets/").data).length from rfl, List.drop_left]
  rw [takeSeg_spec (hseg stack hstack)]
  dsimp only
  rw [takeSeg_spec (hseg uid huid)]
  dsimp only
  rw [takeSeg_spec (hseg version hversion)]
  dsimp only
  have hq : fname.data ++ ('"') :: rest =
      fname.data ++ ('"') :: rest := by simp
  rw [hq, lazyToQuote_spec (fun c hc => by
    have h := (safeStr_spec hfname).2 c hc
    exact ⟨(alnum_facts h).1, (alnum_facts h).2.2.2.1⟩)]

theorem hostChars_mem (host : Nat) : hostChars host ∈ hostAlternatives := by
  rw [hostChars]
  by_cases hlt : host < hostAlternatives.length
  · rw [List.getD_eq_getElem _ _ hlt]
    exact List.getElem_mem _
  · rw [List.getD_eq_default _ _ (by omega)]
    decide

theorem not_isPrefixOf_append {l₁ l₂ t : List Char}
    (h₁ : ¬ l₁ <+: l₂) (h₂ : ¬ l₂ <+: l₁) :
    ¬ (l₁.isPrefixOf (l₂ ++ t) = true) := by
  intro hpre
  have hp := List.isPrefixOf_iff_prefix.mp hpre
  by_cases hle : l₁.length ≤ l₂.length
  · exact h₁ (List.prefix_of_prefix_length_le hp ⟨t, rfl⟩ hle)
  · exact h₂ (List.prefix_of_prefix_length_le ⟨t, rfl⟩ hp (by omega))

theorem tryMatch2_append (hc tail : List Char) (hhc : hc ∈ hostAlternatives)
    {uid rest' : List Char} (hm : matchAfterHost tail = some (uid, rest')) :
    tryMatch2 (("https://").data ++ (hc ++ tail)) = some (uid, rest') := by
  rw [tryMatch2, if_pos (List.isPrefixOf_iff_prefix.mpr ⟨_, rfl⟩)]
  rw [show ((("https://").data ++ (hc ++ tail)).drop 8) = hc ++ tail by
    rw [show (8 : Nat) = (("https://").data).length from rfl]
    exact List.drop_left _ _]
  rw [hostAlternatives] at hhc
  simp only [List.mem_cons, List.mem_singleton, List.not_mem_nil, or_false] at hhc
  rw [show hostAlternatives.foldr
      (fun h acc =>
        if h.isPrefixOf (hc ++ tail) then
          match matchAfterHost ((hc ++ tail).drop h.length) with
          | some res => some res
          | none => acc
        else acc) none =
    List.foldr
      (fun h acc =>
        if h.isPrefixOf (hc ++ tail) then
          match matchAfterHost ((hc ++ tail).drop h.length) with
          | some res => some res
          | none => acc
        else acc) none
      [("assets").data, ("eu-images").data, ("azure-na-images").data,
       ("azure-eu-images").data, ("gcp-na-images").data,
       ("gcp-eu-images").data, ("images").data] from rfl]
  simp only [List.foldr_cons, List.foldr_nil]
  rcases hhc with rfl | rfl | rfl | rfl | rfl | rfl | rfl
  · rw [if_pos (List.isPrefixOf_iff_prefix.mpr ⟨_, rfl⟩),
      show ((("assets").data ++ tail).drop (("assets").data).length) = tail from
        List.drop_left _ _, hm]
  · rw [if_neg (not_isPrefixOf_append (by decide) (by decide)),
      if_pos (List.isPrefixOf_iff_prefix.mpr ⟨_, rfl⟩),
      show ((("eu-images").data ++ tail).drop (("eu-images").data).length) = tail from
        List.drop_left _ _, hm]
  · rw [if_neg (not_isPrefixOf_append (by decide) (by decide)),
      if_neg (not_isPrefixOf_append (by decide) (by decide)),
      if_pos (List.isPrefixOf_iff_prefix.mpr ⟨_, rfl⟩),
      show ((("azure-na-images").data ++ tail).drop
        (("azure-na-images").data).length) = tail from List.drop_left _ _, hm]
  · rw [if_neg (not_isPrefixOf_append (by decide) (by decide)),
      if_neg (not_isPrefixOf_append (by decide) (by decide)),
      if_neg (not_isPrefixOf_append (by decide) (by decide)),
      if_pos (List.isPrefixOf_iff_prefix.mpr ⟨_, rfl⟩),
      show ((("azure-eu-images").data ++ tail).drop
        (("azure-eu-images").data).length) = tail from List.drop_left _ _, hm]
  · rw [if_neg (not_isPrefixOf_append (by decide) (by decide)),
      if_neg (not_isPrefixOf_append (by decide) (by decide)),
      if_neg (not_isPrefixOf_append (by decide) (by decide)),
      if_neg (not_isPrefixOf_append (by decide) (by decide)),
      if_pos (List.isPrefixOf_iff_prefix.mpr ⟨_, rfl⟩),
      show ((("gcp-na-images").data ++ tail).drop
        (("gcp-na-images").data).length) = tail from List.drop_left _ _, hm]
  · rw [if_neg (not_isPrefixOf_append (by decide) (by decide)),
      if_neg (not_isPrefixOf_append (by decide) (by decide)),
      if_neg (not_isPrefixOf_append (by decide) (by decide)),
      if_neg (not_isPrefixOf_append (by decide) (by decide)),
      if_neg (not_isPrefixOf_append (by decide) (by decide)),
      if_pos (List.isPrefixOf_iff_prefix.mpr ⟨_, rfl⟩),
      show ((("gcp-eu-images").data ++ tail).drop
        (("gcp-eu-images").data).length) = tail from List.drop_left _ _, hm]
  · rw [if_neg (not_isPrefixOf_append (by decide) (by decide)),
      if_neg (not_isPrefixOf_append (by decide) (by decide)),
      if_neg (not_isPrefixOf_append (by decide) (by decide)),
      if_neg (not_isPrefixOf_append (by decide) (by decide)),
      if_neg (not_isPrefixOf_append (by decide) (by decide)),
      if_neg (not_isPrefixOf_append (by decide) (by decide)),
      if_pos (List.isPrefixOf_iff_prefix.mpr ⟨_, rfl⟩),
      show ((("images").data ++ tail).drop (("images").data).length) = tail from
        List.drop_left _ _, hm]

theorem tryMatch2_url {host : Nat} {tld : Bool} {stack uid version fname : String}
    {rest : List Char}
    (hstack : safeStr stack = true) (huid : safeStr uid = true)
    (hversion : safeStr version = true) (hfname : safeStr fname = true) :
    tryMatch2 (renderToken (.url host tld stack uid version fname) ++ rest) =
      some (uid.data, ('"') :: rest) := by
  have hre : renderToken (.url host tld stack uid version fname) ++ rest =
      ("https://").data ++ (hostChars host ++ (('.') :: (("contentstack").data ++
        ('.') :: (tldChars tld ++ (("/v3/assets/").data ++ (stack.data ++
        ('/') :: (uid.data ++ ('/') :: (version.data ++
        ('/') :: (fname.data ++ ('"') :: rest))))))))) := by
    rw [renderToken]
    simp
  rw [hre]
  exact tryMatch2_append (hostChars host) _ (hostChars_mem host)
    (matchAfterHost_render hstack huid hversion hfname)

theorem tryMatch2_none_of_head {c : Char} {cs : List Char} (h : c ≠ ('h')) :
    tryMatch2 (c :: cs) = none := by
  rw [tryMatch2, if_neg]
  intro hpre
  obtain ⟨t, ht⟩ := List.isPrefixOf_iff_prefix.mp hpre
  rw [show ("https://").data = ('h') :: (("ttps://").data) from rfl,
    List.cons_append] at ht
  exact h (List.cons.injEq .. ▸ ht).1.symm

theorem scan1_match {l cap rest : List Char}
    (h : tryMatch1 l = some (cap, rest)) : scan1 l = cap :: scan1 rest := by
  cases l with
  | nil => rw [tryMatch1, if_neg (by decide)] at h; cases h
  | cons c cs => exact scan1_cons_match h

theorem scan2_match {l cap rest : List Char}
    (h : tryMatch2 l = some (cap, rest)) : scan2 l = cap :: scan2 rest := by
  cases l with
  | nil => rw [tryMatch2, if_neg (by decide)] at h; cases h
  | cons c cs => exact scan2_cons_match h

theorem hostChars_no_lt_colon (host : Nat) :
    ∀ c ∈ hostChars host, c ≠ ('<') ∧ c ≠ (':') := by
  have hpool : ∀ hc ∈ hostAlternatives, ∀ c ∈ hc,
      c ≠ ('<') ∧ c ≠ (':') := by decide
  exact hpool _ (hostChars_mem host)

theorem markerRender_no_colon {uid : String} (hsafe : safeStr uid = true) :
    ∀ c ∈ renderToken (.marker uid), c ≠ (':') := by
  intro c hc
  rw [renderToken] at hc
  rw [List.mem_append] at hc
  cases hc with
  | inl hc => revert hc; revert c; decide
  | inr hc =>
    rw [List.mem_append] at hc
    cases hc with
    | inl hc => exact (alnum_facts ((safeStr_spec hsafe).2 c hc)).2.2.2.2.2
    | inr hc => revert hc; revert c; decide

theorem urlRender_no_lt {host : Nat} {tld : Bool} {stack uid version fname : String}
    (hstack : safeStr stack = true) (huid : safeStr uid = true)
    (hversion : safeStr version = true) (hfname : safeStr fname = true) :
    ∀ c ∈ renderToken (.url host tld stack uid version fname), c ≠ ('<') := by
  intro c hc
  rw [renderToken] at hc
  have halnum : ∀ (s : String), safeStr s = true → c ∈ s.data → c ≠ ('<') := by
    intro s hs hcs
    exact (alnum_facts ((safeStr_spec hs).2 c hcs)).2.2.2.2.1
  simp only [List.mem_append, List.mem_cons, List.mem_singleton,
    List.not_mem_nil, or_false] at hc
  rcases hc with hc | hc | rfl | hc | rfl | hc | hc | hc | rfl | hc | rfl | hc | rfl | hc | rfl
  · rcases hc with rfl | rfl | rfl | rfl | rfl | rfl | rfl | rfl <;> decide
  · exact (hostChars_no_lt_colon host c hc).1
  · decide
  · rcases hc with rfl | rfl | rfl | rfl | rfl | rfl | rfl | rfl | rfl | rfl | rfl | rfl <;>
      decide
  · decide
  · cases tld with
    | true =>
      clear halnum; revert hc; revert c
      rw [show tldChars true = ("io").data from rfl]; decide
    | false =>
      clear halnum; revert hc; revert c
      rw [show tldChars false = ("com").data from rfl]; decide
  · rcases hc with rfl | rfl | rfl | rfl | rfl | rfl | rfl | rfl | rfl | rfl | rfl <;> decide
  · exact halnum stack hstack hc
  · decide
  · exact halnum uid huid hc
  · decide
  · exact halnum version hversion hc
  · decide
  · exact halnum fname hfname hc
  · decide

theorem renderTokens_restOk (ts : List AssetToken) : restOk (renderTokens ts) := by
  cases ts with
  | nil => exact Or.inl rfl
  | cons t ts' =>
    rw [renderTokens, List.map_cons, List.flatten_cons]
    cases t with
    | marker uid =>
      refine Or.inr (Or.inl ?_)
      rw [renderToken]
      rfl
    | url host tld stack uid version fname =>
      refine Or.inr (Or.inr ?_)
      rw [renderToken]
      rfl

theorem scan1_renderTokens : ∀ (ts : List AssetToken),
    (∀ t ∈ ts, safeToken t = true) →
    scan1 (renderTokens ts) = (markerUIDs ts).map String.data := by
  intro ts
  induction ts with
  | nil => intro h; rfl
  | cons t ts ih =>
    intro h
    rw [renderTokens, List.map_cons, List.flatten_cons]
    cases t with
    | marker uid =>
      have hsafe : safeStr uid = true := h (AssetToken.marker uid) (by simp)
      rw [scan1_match (tryMatch1_marker hsafe),
        scan1_cons_skip (tryMatch1_none_of_head (by decide))]
      rw [show ((ts.map renderToken).flatten : List Char) = renderTokens ts from rfl]
      rw [ih fun x hx => h x (by simp [hx])]
      rfl
    | url host tld stack uid version fname =>
      have hsafe : safeToken (AssetToken.url host tld stack uid version fname) = true :=
        h _ (List.mem_cons_self _ _)
      rw [safeToken, Bool.and_eq_true, Bool.and_eq_true, Bool.and_eq_true] at hsafe
      rw [scan1_append_skip _ _
        (urlRender_no_lt hsafe.1.1.1 hsafe.1.1.2 hsafe.1.2 hsafe.2)]
      rw [show ((ts.map renderToken).flatten : List Char) = renderTokens ts from rfl]
      rw [ih fun x hx => h x (by simp [hx])]
      rfl

theorem scan2_renderTokens : ∀ (ts : List AssetToken),
    (∀ t ∈ ts, safeToken t = true) →
    scan2 (renderTokens ts) = (urlUIDs ts).map String.data := by
  intro ts
  induction ts with
  | nil => intro h; rfl
  | cons t ts ih =>
    intro h
    rw [renderTokens, List.map_cons, List.flatten_cons]
    cases t with
    | marker uid =>
      have hsafe : safeStr uid = true := h (AssetToken.marker uid) (by simp)
      rw [show ((ts.map renderToken).flatten : List Char) = renderTokens ts from rfl]
      rw [scan2_append_skip _ _ (markerRender_no_colon hsafe)
        (renderTokens_restOk ts)]
      rw [ih fun x hx => h x (by simp [hx])]
      rfl
    | url host tld stack uid version fname =>
      have hsafe : safeToken (AssetToken.url host tld stack uid version fname) = true :=
        h _ (List.mem_cons_self _ _)
      rw [safeToken, Bool.and_eq_true, Bool.and_eq_true, Bool.and_eq_true] at hsafe
      rw [scan2_match (tryMatch2_url hsafe.1.1.1 hsafe.1.1.2 hsafe.1.2 hsafe.2),
        scan2_cons_skip (tryMatch2_none_of_head (by decide))]
      rw [show ((ts.map renderToken).flatten : List Char) = renderTokens ts from rfl]
      rw [ih fun x hx => h x (by simp [hx])]
      rfl

theorem setList_length (l : List String) :
    (setList l).length = l.toFinset.card := by
  rw [← List.toFinset_card_of_nodup (setList_nodup l)]
  congr 1
  ext x
  simp [mem_setList]

/-- **C5.** A serialized string made of `N` distinct embedded-media markers
and `M` distinct hosted-asset URLs with disjoint identifiers — in any order,
each duplicated arbitrarily often, across every regional host variant —
yields from `extractAssetUIDsFromString` exactly `N + M` unique identifiers:
a duplicate-free list whose members are precisely the marker and URL
identifiers. -/
theorem extractAssetUIDsFromString_roundtrip (ts : List AssetToken)
    (hsafe : ∀ t ∈ ts, safeToken t = true) (N M : Nat)
    (hN : (markerUIDs ts).toFinset.card = N)
    (hM : (urlUIDs ts).toFinset.card = M)
    (hdisj : ∀ u ∈ markerUIDs ts, u ∉ urlUIDs ts) :
    (extractAssetUIDsFromString (renderTokens ts)).length = N + M ∧
      (extractAssetUIDsFromString (renderTokens ts)).Nodup ∧
      ∀ u, u ∈ extractAssetUIDsFromString (renderTokens ts) ↔
        (u ∈ markerUIDs ts ∨ u ∈ urlUIDs ts) := by
  have hmk : ∀ l : List String, (l.map String.data).map (fun u => String.mk u) = l := by
    intro l
    rw [List.map_map]
    have hid : ((fun u => String.mk u) ∘ String.data) = id := by
      funext s
      rfl
    rw [hid, List.map_id]
  have hext : extractAssetUIDsFromString (renderTokens ts) =
      setList (markerUIDs ts ++ urlUIDs ts) := by
    rw [extractAssetUIDsFromString, scan1_renderTokens ts hsafe,
      scan2_renderTokens ts hsafe, List.map_append, hmk, hmk]
  refine ⟨?_, ?_, ?_⟩
  · rw [hext, setList_length, List.toFinset_append]
    rw [Finset.card_union_of_disjoint]
    · rw [hN, hM]
    · rw [Finset.disjoint_left]
      intro u hu hu'
      exact hdisj u (List.mem_toFinset.mp hu) (List.mem_toFinset.mp hu')
  · rw [hext]
    exact setList_nodup _
  · intro u
    rw [hext, mem_setList, List.mem_append]

/-- Witness for C5 with one marker and one EU-variant URL (`N = M = 1`). -/
theorem extractAssetUIDsFromString_roundtrip_witness :
    (extractAssetUIDsFromString (renderTokens
      [AssetToken.marker ("m1"),
       AssetToken.url 1 true ("stk1") ("u1") ("v7") ("f1")])).length = 1 + 1 :=
  (extractAssetUIDsFromString_roundtrip
    [AssetToken.marker ("m1"),
     AssetToken.url 1 true ("stk1") ("u1") ("v7") ("f1")]
    (by decide) 1 1 (by decide) (by decide) (by decide)).1

end QueryExport
